import Mathlib

/-!
Verification development for PhyloRank's `Decorate` component
(`phylorank/decorate.py`): decoration of internal nodes of a rooted
phylogenetic tree with taxon labels via an F-measure placement search,
unambiguous assignment, and relative-divergence based resolution of ties.

The tree is modelled as a nested inductive (`PTree`); nodes are addressed
by root-relative child-index paths (`NPath`).  Mutable node labels are
modelled as a function from paths to a structured label record (`NLabel`),
mirroring the parse_label/create_label interface boundary (support value,
semicolon-joined taxon tokens, auxiliary text).  Rational numbers stand in
for Python floats; all arithmetic in `decorate.py` on the numbers involved
is exact, so this is faithful.
-/

unseal Rat.add Rat.mul Rat.inv Rat.sub

/-- A rooted phylogenetic tree: leaves carry extant-taxon identifiers. -/
inductive PTree where
  | leaf (name : String)
  | node (children : List PTree)


/-- Root-relative address of a node: the list of child indices on the way down. -/
abbrev NPath := List Nat

/-- Subtree rooted at the node addressed by a path (dendropy node lookup). -/
def subtreeAt : NPath → PTree → Option PTree
  | [], t => some t
  | i :: p, .node cs => (cs.get? i).bind (subtreeAt p)
  | _ :: _, .leaf _ => none

mutual
/-- Leaf taxon identifiers of a tree, in left-to-right order
(dendropy `leaf_node_iter` / `leaf_iter`). -/
def leavesOf : PTree → List String
  | .leaf n => [n]
  | .node cs => leavesOfList cs

def leavesOfList : List PTree → List String
  | [] => []
  | t :: ts => leavesOf t ++ leavesOfList ts
end

mutual
/-- Paths of all nodes of a tree in preorder (dendropy `preorder_iter`):
a node first, then its children left to right, depth first. -/
def preorderPaths : PTree → List NPath
  | .leaf _ => [[]]
  | .node cs => [] :: preorderPathsList 0 cs

def preorderPathsList : Nat → List PTree → List NPath
  | _, [] => []
  | i, t :: ts => (preorderPaths t).map (fun p => i :: p) ++ preorderPathsList (i + 1) ts
end

mutual
/-- Paths of the leaves of a tree, in left-to-right order. -/
def leafPaths : PTree → List NPath
  | .leaf _ => [[]]
  | .node cs => leafPathsList 0 cs

def leafPathsList : Nat → List PTree → List NPath
  | _, [] => []
  | i, t :: ts => (leafPaths t).map (fun p => i :: p) ++ leafPathsList (i + 1) ts
end

/-- Absolute paths (from the whole tree's root) of all nodes in the subtree
rooted at `p`, in preorder. -/
def preorderPathsAt (t : PTree) (p : NPath) : List NPath :=
  match subtreeAt p t with
  | none => []
  | some st => (preorderPaths st).map (fun q => p ++ q)

/-- Absolute paths of the leaves below the node addressed by `p`. -/
def leafPathsUnder (t : PTree) (p : NPath) : List NPath :=
  match subtreeAt p t with
  | none => []
  | some st => (leafPaths st).map (fun q => p ++ q)

/-- Whether the node addressed by `p` is a leaf. -/
def isLeafAt (t : PTree) (p : NPath) : Bool :=
  match subtreeAt p t with
  | some (.leaf _) => true
  | _ => false

/-- Paths of the internal (non-leaf) nodes of the tree, in preorder
(dendropy `internal_nodes`). -/
def internalPaths (t : PTree) : List NPath :=
  (preorderPaths t).filter (fun p => !(isLeafAt t p))

/-- biolib `Taxonomy.rank_prefixes`: the placeholder value of each rank. -/
def rankPrefixes : List String :=
  ["d__", "p__", "c__", "o__", "f__", "g__", "s__"]

/-- Placeholder value of a given rank index. -/
def prefixAt (r : Nat) : String := rankPrefixes.getD r ""

/-- Embeds `node.taxa_count[rank][taxon]`: number of leaves in the subtree at `p`
whose taxonomy names `taxon` at rank `rank`; the per-rank placeholder is
excluded from the counts. -/
def taxaCount (t : PTree) (τ : String → List String) (p : NPath)
    (rank : Nat) (taxon : String) : Nat :=
  match subtreeAt p t with
  | none => 0
  | some st =>
      ((leavesOf st).filter
        (fun l => (τ l)[rank]? == some taxon && !(taxon == prefixAt rank))).length

/-- Embeds `sum(node.taxa_count[rank].values())`: number of leaves in the subtree at
`p` carrying any named (non-placeholder) taxon at rank `rank`. -/
def leavesWithNamedTaxonAt (t : PTree) (τ : String → List String) (p : NPath)
    (rank : Nat) : Nat :=
  match subtreeAt p t with
  | none => 0
  | some st =>
      ((leavesOf st).filter
        (fun l => match (τ l)[rank]? with
                  | some x => !(x == prefixAt rank)
                  | none => false)).length

/-- Embeds `taxa_in_tree[taxon]`: over every leaf of the tree, the number of rank
positions of its taxonomy record equal to `taxon`, summed. -/
def taxaInTree (t : PTree) (τ : String → List String) (taxon : String) : Nat :=
  ((leavesOf t).map (fun l => (τ l).count taxon)).sum

/-- Embeds `len(extent_taxa_with_label[rank][taxon])`: number of distinct extant taxa
(leaf identifiers) whose taxonomy names `taxon` at rank `rank`. -/
def totalTaxa (t : PTree) (τ : String → List String) (rank : Nat)
    (taxon : String) : Nat :=
  (((leavesOf t).filter (fun l => (τ l)[rank]? == some taxon)).dedup).length

/-- Embeds `named_lineages_at_rank`: the named (non-placeholder) taxa occurring at a
given rank among the tree's leaves, in first-occurrence order. -/
def taxaAtRank (t : PTree) (τ : String → List String) (rank : Nat) : List String :=
  (((leavesOf t).filterMap (fun l => (τ l)[rank]?)).filter
      (fun x => !(x == prefixAt rank))).dedup

/-- Embeds `taxon_parents[taxon][-1]`: the immediate parent taxon of `taxon` at rank
`rank`, read off the taxonomy record of the first leaf carrying it. -/
def parentOf (t : PTree) (τ : String → List String) (rank : Nat)
    (taxon : String) : Option String :=
  ((leavesOf t).find? (fun l => (τ l)[rank]? == some taxon)).bind
    (fun l => (τ l)[rank - 1]?)

/-- Longest common lead segment of two paths. -/
def lcp2 : NPath → NPath → NPath
  | a :: as, b :: bs => if a = b then a :: lcp2 as bs else []
  | _, _ => []

/-- Embeds `tree.mrca(taxa=...)` over the union of the leaves below the given nodes:
the lowest common ancestor, computed as the longest common lead segment of
all those leaf paths. -/
def mrcaOf (t : PTree) (ps : List NPath) : NPath :=
  match ps.flatMap (leafPathsUnder t) with
  | [] => []
  | q :: qs => qs.foldl lcp2 q

/-- A candidate placement: node path, F-measure, precision, recall. -/
abbrev Cand := NPath × ℚ × ℚ × ℚ

/-- Body of the per-node loop of `_fmeasure` (decorate.py lines 131-144):
score a node and update the running `(cur_taxon_fmeasure, candidate list)`
state.  Nodes with `taxa_in_lineage == 0` or `num_leaves_with_taxa == 0`
leave the state unchanged. -/
def evalStep (t : PTree) (τ : String → List String) (rank : Nat) (taxon : String)
    (total : Nat) (st : ℚ × List Cand) (p : NPath) : ℚ × List Cand :=
  let til := taxaCount t τ p rank taxon
  let nlt := leavesWithNamedTaxonAt t τ p rank
  if til ≠ 0 ∧ nlt ≠ 0 then
    let pr : ℚ := (til : ℚ) / (nlt : ℚ)
    let rc : ℚ := (til : ℚ) / (total : ℚ)
    let fm : ℚ := 2 * pr * rc / (pr + rc)
    if st.1 < fm then (fm, [(p, fm, pr, rc)])
    else if fm = st.1 then (st.1, st.2 ++ [(p, fm, pr, rc)])
    else st
  else st

/-- Candidate placements of a taxon over the preorder of the subtree rooted at
`root`, starting from `cur_taxon_fmeasure = -1` and an empty list. -/
def candidatesFor (t : PTree) (τ : String → List String) (rank : Nat)
    (taxon : String) (root : NPath) : List Cand :=
  ((preorderPathsAt t root).foldl
      (evalStep t τ rank taxon (totalTaxa t τ rank taxon)) (-1, [])).2

/-- The nodes of a search region that receive a score at all, with their
F-measure, precision and recall, in traversal order. -/
def scoredOf (t : PTree) (τ : String → List String) (rank : Nat) (taxon : String)
    (region : List NPath) : List Cand :=
  region.filterMap (fun p =>
    let til := taxaCount t τ p rank taxon
    let nlt := leavesWithNamedTaxonAt t τ p rank
    if til ≠ 0 ∧ nlt ≠ 0 then
      let pr : ℚ := (til : ℚ) / (nlt : ℚ)
      let rc : ℚ := (til : ℚ) / (totalTaxa t τ rank taxon : ℚ)
      some (p, 2 * pr * rc / (pr + rc), pr, rc)
    else none)

/-- Embeds `fmeasure_for_taxa`: insertion-ordered association list from a taxon to its
candidate placements. -/
abbrev FMap := List (String × List Cand)

/-- Lookup in an association list (Python `dict` access). -/
def alookup (fm : FMap) (k : String) : Option (List Cand) :=
  (fm.find? (fun kv => kv.1 == k)).map (·.2)

/-- Assignment in an association list (Python `dict` assignment): replace the
existing binding in place, or append a new one. -/
def aset (fm : FMap) (k : String) (v : List Cand) : FMap :=
  match fm with
  | [] => [(k, v)]
  | kv :: rest => if kv.1 == k then (k, v) :: rest else kv :: aset rest k v

/-- Record the candidates found for a taxon: in `_fmeasure` the key is only
ever written from inside the node loop, so no entry appears when no node of
the search region received a score. -/
def addCandidates (fm : FMap) (taxon : String) (cands : List Cand) : FMap :=
  if cands.isEmpty then fm else aset fm taxon cands

/-- Search-root determination of `_fmeasure` (decorate.py lines 97-126): the
tree root at the domain rank; otherwise the parent taxon's placement (the
MRCA of its tied placements when several), `none` when the parent taxon was
never placed, and the tree root instead whenever the chosen node's subtree
holds fewer than half of the taxon's tree-wide leaf count. -/
def searchRootFor (t : PTree) (τ : String → List String) (fm : FMap)
    (rank : Nat) (taxon : String) : Option NPath :=
  if rank = 0 then some []
  else
    match parentOf t τ rank taxon with
    | none => none
    | some ptx =>
      match alookup fm ptx with
      | none => none
      | some plist =>
        let pnodes := plist.map (·.1)
        let root0 := if pnodes.length = 1 then pnodes.headD [] else mrcaOf t pnodes
        some (if 2 * taxaCount t τ root0 rank taxon < taxaInTree t τ taxon
              then [] else root0)

/-- One iteration of the per-taxon loop of `_fmeasure` (decorate.py lines
97-144): determine the search root, then collect the maximal-F-measure
candidates below it; a taxon whose parent was never placed is skipped. -/
def processTaxon (t : PTree) (τ : String → List String) (fm : FMap)
    (rank : Nat) (taxon : String) : FMap :=
  match searchRootFor t τ fm rank taxon with
  | none => fm
  | some root => addCandidates fm taxon (candidatesFor t τ rank taxon root)

/-- Embeds `_fmeasure`: process the seven ranks from most general to most specific,
and within a rank every named taxon occurring at it. -/
def fmeasureForTaxa (t : PTree) (τ : String → List String) : FMap :=
  (List.range 7).foldl
    (fun fm rank => (taxaAtRank t τ rank).foldl
        (fun fm tx => processTaxon t τ fm rank tx) fm)
    []

/-- Structured content of a node label at the parse_label/create_label
interface boundary: optional support value, taxon name tokens (the
semicolon-joined taxon string), optional auxiliary text. -/
structure NLabel where
  support : Option Nat
  taxa : List String
  aux : Option String
deriving DecidableEq, Repr

/-- The label state of the whole tree: the label record at each node path. -/
abbrev Labels := NPath → NLabel

/-- Write one node's label. -/
def setLabel (L : Labels) (p : NPath) (v : NLabel) : Labels :=
  fun q => if q = p then v else L q

/-- Python truthiness of a support value (`if support:`): present and nonzero. -/
def truthy : Option Nat → Bool
  | none => false
  | some s => s ≠ 0

/-- Embeds `_strip_taxon_labels`: for every internal node whose support value is
truthy, keep the support and drop taxon tokens and auxiliary text; nodes
without a truthy support keep their label unchanged. -/
def stripTaxonLabels (t : PTree) (L : Labels) : Labels :=
  (internalPaths t).foldl
    (fun L p =>
      let lb := L p
      if truthy lb.support then setLabel L p ⟨lb.support, [], none⟩ else L)
    L

/-- Embeds `s.startswith(p)` over the underlying character lists. -/
def strStartsWith (s p : String) : Bool := p.data.isPrefixOf s.data

/-- Code-point lexicographic comparison of character lists (the order Python's
`sorted` uses on strings). -/
def charListLt : List Char → List Char → Bool
  | _, [] => false
  | [], _ :: _ => true
  | a :: as, b :: bs => a < b || (a == b && charListLt as bs)

/-- String comparison by code points. -/
def strLeB (a b : String) : Bool := !(charListLt b.data a.data)

/-- Stable insertion into a sorted list of strings. -/
def insertSorted (x : String) : List String → List String
  | [] => [x]
  | y :: ys => if strLeB x y then x :: y :: ys else y :: insertSorted x ys

/-- Stable alphabetical sort of strings (Python `sorted`). -/
def sortStrings (l : List String) : List String := l.foldr insertSorted []

/-- biolib `Taxonomy.sort_taxa`: group taxa by rank (domain first), sort each
group alphabetically, and concatenate; names not starting with any rank
placeholder are dropped. -/
def sortTaxa (names : List String) : List String :=
  (List.range 7).flatMap
    (fun r => sortStrings (names.filter (fun n => strStartsWith n (prefixAt r))))

/-- Body of the `_assign_taxon_labels` loop: a taxon with exactly one
candidate placement is appended to that node's taxon tokens (support and
auxiliary text preserved) and recorded as placed; all other taxa are
skipped. -/
def assignStep (fm : FMap) (acc : List String × Labels) (tx : String) :
    List String × Labels :=
  match alookup fm tx with
  | some [c] =>
      let lb := acc.2 c.1
      (acc.1 ++ [tx], setLabel acc.2 c.1 ⟨lb.support, lb.taxa ++ [tx], lb.aux⟩)
  | _ => acc

/-- Embeds `_assign_taxon_labels`: in sorted taxon order, append each taxon with a
single candidate placement to that node's taxon tokens, preserving support
and auxiliary text; return the taxa placed this way together with the new
label state. -/
def assignTaxonLabels (fm : FMap) (L : Labels) : List String × Labels :=
  (sortTaxa (fm.map (·.1))).foldl (assignStep fm) ([], L)

/-- Whether a taxon currently has exactly one candidate placement. -/
def placedB (fm : FMap) (tx : String) : Bool :=
  match alookup fm tx with
  | some [_] => true
  | _ => false

/-- Rank index encoded by the last taxon token of a node's label string
(`cur_taxon.split(';')[-1].strip()[0:3]`), `-1` when the node carries no
taxon tokens.  An unknown lead triple is mapped to `7`; at that point the
Python source raises `ValueError` instead. -/
def lastTokenRank (lb : NLabel) : Int :=
  match lb.taxa.getLast? with
  | none => -1
  | some tk => ((rankPrefixes.findIdx (fun s => s == tk.take 3)) : Int)

/-- Condition of decorate.py line 392: the node already carries a committed
label whose rank is strictly more specific than the rank being placed. -/
def moreSpecificAt (L : Labels) (rank : Nat) (c : Cand) : Bool :=
  (rank : Int) < lastTokenRank (L c.1)

/-- The candidate scan of `_resolve_ambiguous_placements` (decorate.py lines
383-408): walk the candidates in stored (preorder) order carrying the
running closest in-tolerance index `cl` and its distance `cd`; stop at the
first candidate with a strictly more specific committed label, keeping the
already-chosen index if any, else choosing the stopping candidate; at the
end of the list fall back to `fallback` when nothing was chosen. -/
def resolveScanGo (L : Labels) (relDist : NPath → ℚ) (rank : Nat) (rd tol : ℚ)
    (fallback : Nat) : Nat → List Cand → Option Nat → ℚ → Nat
  | _, [], cl, _ => cl.getD fallback
  | i, c :: rest, cl, cd =>
    if moreSpecificAt L rank c then cl.getD i
    else
      let d := |rd - relDist c.1|
      if tol < d then resolveScanGo L relDist rank rd tol fallback (i + 1) rest cl cd
      else if d < cd then resolveScanGo L relDist rank rd tol fallback (i + 1) rest (some i) d
      else resolveScanGo L relDist rank rd tol fallback (i + 1) rest cl cd

/-- Index chosen by the scan, starting from `closest_index = None` and
`closest_dist = 1e9`, with the last candidate as the fallback. -/
def resolveScan (L : Labels) (relDist : NPath → ℚ) (rank : Nat) (rd tol : ℚ)
    (cands : List Cand) : Nat :=
  resolveScanGo L relDist rank rd tol (cands.length - 1) 0 cands none (10 ^ 9 : ℚ)

/-- One iteration of the per-taxon loop of `_resolve_ambiguous_placements`
(decorate.py lines 369-428): skip resolved taxa, scan the candidates of an
ambiguous one, merge the taxon into the chosen node's label (tokens
re-sorted), and collapse the candidate list to the chosen entry.  On an
empty candidate list the Python source raises `IndexError`; such entries
never occur (`_fmeasure` only creates non-empty ones), and the model leaves
them unchanged. -/
def resolveOne (relDist : NPath → ℚ) (medianRd : Nat → ℚ) (tol : ℚ)
    (st : FMap × Labels) (tx : String) : FMap × Labels :=
  match alookup st.1 tx with
  | none => st
  | some [] => st
  | some [_] => st
  | some cands =>
      let rank := rankPrefixes.findIdx (fun s => s == tx.take 3)
      let rd := medianRd rank
      let i := resolveScan st.2 relDist rank rd tol cands
      let c := cands.getD i ([], 0, 0, 0)
      let lb := st.2 c.1
      let newTaxa := if lb.taxa.isEmpty then [tx] else sortTaxa (lb.taxa ++ [tx])
      (aset st.1 tx [c], setLabel st.2 c.1 ⟨lb.support, newTaxa, lb.aux⟩)

/-- Embeds `_resolve_ambiguous_placements`: process the taxa of the candidate map in
reverse sorted order (most specific rank first). -/
def resolveAmbiguousPlacements (fm : FMap) (L : Labels) (relDist : NPath → ℚ)
    (medianRd : Nat → ℚ) (tol : ℚ) : FMap × Labels :=
  ((sortTaxa (fm.map (·.1))).reverse).foldl (resolveOne relDist medianRd tol) (fm, L)

/-- Row computation of `_write_statistics_table` (decorate.py lines 204-210):
any taxon whose candidate list length is not exactly 1 aborts the run
(`sys.exit` after an error log), modelled as `Except.error`. -/
def writeStatsGo (fm : FMap) : List String → Except String (List (String × ℚ × ℚ × ℚ))
  | [] => .ok []
  | tx :: rest =>
      match (alookup fm tx).getD [] with
      | [c] => (writeStatsGo fm rest).map (fun out => (tx, c.2.1, c.2.2.1, c.2.2.2) :: out)
      | _ => .error "Multiple positions specified for taxon label."

/-- Embeds `_write_statistics_table` over the sorted taxa of the candidate map. -/
def writeStatisticsTable (fm : FMap) : Except String (List (String × ℚ × ℚ × ℚ)) :=
  writeStatsGo fm (sortTaxa (fm.map (·.1)))

/-- The node paths from a leaf up to the root (walking `parent_node` links,
starting at the leaf itself). -/
def chainUp (p : NPath) : List NPath := p.inits.reverse

/-- Embeds `_leaf_taxa` (decorate.py lines 228-247): collect label tokens from leaf
to root (tokens of each node reversed), reverse into root-to-leaf order, and
fill in the missing trailing ranks after the last token's rank.  On a leaf
with no labelled node anywhere on its root path, `ordered_taxa[-1]` indexes
an empty list: `IndexError`, modelled as `Except.error`; likewise
`rank_prefixes.index` raises `ValueError` on an unknown lead triple. -/
def leafTaxa (L : Labels) (p : NPath) : Except String (List String) :=
  let ordered := ((chainUp p).foldl (fun acc q => acc ++ (L q).taxa.reverse) []).reverse
  match ordered.getLast? with
  | none => .error "list index out of range"
  | some tk =>
      match rankPrefixes.findIdx? (fun s => s == tk.take 3) with
      | none => .error "substring not found"
      | some ridx => .ok (ordered ++ rankPrefixes.drop (ridx + 1))

/-- The tree's leaves with their paths, in left-to-right order. -/
def leavesWithPaths (t : PTree) : List (String × NPath) :=
  (leafPaths t).map (fun p =>
    (match subtreeAt p t with | some (.leaf n) => n | _ => "", p))

/-- Embeds `_write_taxonomy`: emit one taxonomy record per leaf; any failing leaf
aborts the run. -/
def writeTaxGo (L : Labels) : List (String × NPath) → Except String (List (String × List String))
  | [] => .ok []
  | (nm, p) :: rest =>
      match leafTaxa L p with
      | .error e => .error e
      | .ok taxa => (writeTaxGo L rest).map (fun out => (nm, taxa) :: out)

/-- Embeds `_write_taxonomy` over all leaves of the tree. -/
def writeTaxonomy (t : PTree) (L : Labels) : Except String (List (String × List String)) :=
  writeTaxGo L (leavesWithPaths t)

/-- Placement search followed by unambiguous assignment and ambiguity
resolution (`run`, with the relative-divergence data supplied by the
external estimator): the final candidate map and label state. -/
def runPlacement (t : PTree) (τ : String → List String) (L0 : Labels)
    (relDist : NPath → ℚ) (medianRd : Nat → ℚ) (tol : ℚ) : FMap × Labels :=
  let fm := fmeasureForTaxa t τ
  let (_, L1) := assignTaxonLabels fm L0
  resolveAmbiguousPlacements fm L1 relDist medianRd tol

/-! ### Concrete instances used by witnesses and counterexamples -/

/-- Five-leaf tree: `((L1 L3 L4)(L2 L5))`. -/
def treeHV : PTree :=
  .node [.node [.leaf "L1", .leaf "L3", .leaf "L4"], .node [.leaf "L2", .leaf "L5"]]

/-- Taxonomy for `treeHV`: `L1`, `L2` carry phylum `p__tx` and class `c__u`,
the other leaves carry phylum `p__py` and no class. -/
def taxHV : String → List String := fun l =>
  if l = "L1" ∨ l = "L2" then ["d__D", "p__tx", "c__u", "o__", "f__", "g__", "s__"]
  else ["d__D", "p__py", "c__", "o__", "f__", "g__", "s__"]

/-- Two-leaf tree `(A B)`. -/
def treeAB : PTree := .node [.leaf "A", .leaf "B"]

/-- Taxonomy assigning both leaves of `treeAB` to domain `d__D1` only. -/
def taxAB : String → List String := fun _ =>
  ["d__D1", "p__", "c__", "o__", "f__", "g__", "s__"]

/-- Fully placeholder taxonomy: no named taxa anywhere. -/
def taxNone : String → List String := fun _ =>
  ["d__", "p__", "c__", "o__", "f__", "g__", "s__"]

/-- The label state of a freshly parsed support-free tree. -/
def emptyLabels : Labels := fun _ => ⟨none, [], none⟩

/-! ### General lemmas about the embedded operations -/

theorem foldl_append_taxa_nil (L : Labels) :
    ∀ (l : List NPath) (acc : List String), (∀ q ∈ l, (L q).taxa = []) →
      l.foldl (fun acc q => acc ++ (L q).taxa.reverse) acc = acc := by
  intro l
  induction l with
  | nil => intro acc _; rfl
  | cons q l ih =>
      intro acc h
      have hq : (L q).taxa = [] := h q (List.mem_cons_self q l)
      simp only [List.foldl_cons, hq, List.reverse_nil, List.append_nil]
      exact ih acc (fun r hr => h r (List.mem_cons_of_mem q hr))

theorem leafTaxa_error_of_unlabelled (L : Labels) (p : NPath)
    (h : ∀ q ∈ chainUp p, (L q).taxa = []) :
    leafTaxa L p = .error "list index out of range" := by
  unfold leafTaxa
  rw [foldl_append_taxa_nil L (chainUp p) [] h]
  rfl

theorem writeTaxGo_ok_labelled (L : Labels) :
    ∀ (lst : List (String × NPath)) (out : List (String × List String)),
      writeTaxGo L lst = .ok out →
      ∀ pr ∈ lst, ∃ q ∈ chainUp pr.2, (L q).taxa ≠ [] := by
  intro lst
  induction lst with
  | nil => intro out _ pr hpr; cases hpr
  | cons hd tl ih =>
      intro out hok pr hpr
      obtain ⟨nm, p⟩ := hd
      unfold writeTaxGo at hok
      cases hlt : leafTaxa L p with
      | error e => rw [hlt] at hok; cases hok
      | ok taxa =>
          rw [hlt] at hok
          cases hrest : writeTaxGo L tl with
          | error e => rw [hrest] at hok; cases hok
          | ok out' =>
              rcases List.mem_cons.mp hpr with h1 | h2
              · subst h1
                by_contra hall
                push_neg at hall
                have : ∀ q ∈ chainUp p, (L q).taxa = [] := by
                  intro q hq
                  by_contra hne
                  exact hne (hall q hq)
                rw [leafTaxa_error_of_unlabelled L p this] at hlt
                cases hlt
              · exact ih out' hrest pr h2

/-- C10: extracting a leaf's full ancestor label path requires at least one
labelled node on its root-to-leaf path: a leaf none of whose ancestors (nor
itself) carries a taxon token makes `_leaf_taxa` index the last element of
an empty list (`IndexError`), and `_write_taxonomy` fails instead of
emitting an all-unclassified record. -/
theorem c10_leaf_taxa_requires_labelled_ancestor (L : Labels) (p : NPath) (t : PTree) :
    ((∀ q ∈ chainUp p, (L q).taxa = []) →
        leafTaxa L p = .error "list index out of range")
    ∧ (∀ out, writeTaxonomy t L = .ok out →
        ∀ pr ∈ leavesWithPaths t, ∃ q ∈ chainUp pr.2, (L q).taxa ≠ []) := by
  constructor
  · exact leafTaxa_error_of_unlabelled L p
  · intro out hok
    exact writeTaxGo_ok_labelled L (leavesWithPaths t) out hok

/-- Witness for C10 at a concrete unlabelled leaf. -/
theorem c10_witness :
    leafTaxa emptyLabels [0] = .error "list index out of range" :=
  (c10_leaf_taxa_requires_labelled_ancestor emptyLabels [0] treeAB).1 (by decide)

theorem assignStep_of_placed (fm : FMap) (acc : List String × Labels) (tx : String)
    (c : Cand) (h : alookup fm tx = some [c]) :
    assignStep fm acc tx =
      (acc.1 ++ [tx],
        setLabel acc.2 c.1
          ⟨(acc.2 c.1).support, (acc.2 c.1).taxa ++ [tx], (acc.2 c.1).aux⟩) := by
  simp [assignStep, h]

theorem assignStep_of_not_placed (fm : FMap) (acc : List String × Labels) (tx : String)
    (h : placedB fm tx = false) : assignStep fm acc tx = acc := by
  unfold assignStep
  unfold placedB at h
  cases hl : alookup fm tx with
  | none => simp
  | some cs =>
      cases cs with
      | nil => simp
      | cons c rest =>
          cases rest with
          | nil => rw [hl] at h; simp at h
          | cons d rest' => simp

theorem placedB_of_lookup (fm : FMap) (tx : String) (c : Cand)
    (h : alookup fm tx = some [c]) : placedB fm tx = true := by
  unfold placedB
  rw [h]

theorem assign_fold_placed (fm : FMap) :
    ∀ (l : List String) (acc : List String × Labels),
      (l.foldl (assignStep fm) acc).1 = acc.1 ++ l.filter (placedB fm) := by
  intro l
  induction l with
  | nil => intro acc; simp
  | cons tx l ih =>
      intro acc
      cases hb : placedB fm tx with
      | false =>
          rw [List.foldl_cons, assignStep_of_not_placed fm acc tx hb, ih acc]
          simp [List.filter_cons, hb]
      | true =>
          unfold placedB at hb
          cases hl : alookup fm tx with
          | none => rw [hl] at hb; simp at hb
          | some cs =>
              cases cs with
              | nil => rw [hl] at hb; simp at hb
              | cons c rest =>
                  cases rest with
                  | cons d rest' => rw [hl] at hb; simp at hb
                  | nil =>
                      rw [List.foldl_cons, assignStep_of_placed fm acc tx c hl, ih]
                      simp [List.filter_cons, placedB_of_lookup fm tx c hl]

theorem assign_fold_frame (fm : FMap) :
    ∀ (l : List String) (acc : List String × Labels) (p : NPath),
      ((l.foldl (assignStep fm) acc).2 p).support = (acc.2 p).support
      ∧ ((l.foldl (assignStep fm) acc).2 p).aux = (acc.2 p).aux := by
  intro l
  induction l with
  | nil => intro acc p; exact ⟨rfl, rfl⟩
  | cons tx l ih =>
      intro acc p
      rw [List.foldl_cons]
      refine ⟨(ih (assignStep fm acc tx) p).1.trans ?_, (ih (assignStep fm acc tx) p).2.trans ?_⟩
      all_goals {
        unfold assignStep
        cases hl : alookup fm tx with
        | none => rfl
        | some cs =>
            cases cs with
            | nil => rfl
            | cons c rest =>
                cases rest with
                | cons d rest' => rfl
                | nil =>
                    simp only [setLabel]
                    by_cases hp : p = c.1 <;> simp [hp]
      }

theorem assign_fold_append_only (fm : FMap) :
    ∀ (l : List String) (acc : List String × Labels) (p : NPath),
      ∃ s, ((l.foldl (assignStep fm) acc).2 p).taxa = (acc.2 p).taxa ++ s := by
  intro l
  induction l with
  | nil => intro acc p; exact ⟨[], by simp⟩
  | cons tx l ih =>
      intro acc p
      rw [List.foldl_cons]
      obtain ⟨s, hs⟩ := ih (assignStep fm acc tx) p
      have : ∃ s0, ((assignStep fm acc tx).2 p).taxa = (acc.2 p).taxa ++ s0 := by
        unfold assignStep
        cases hl : alookup fm tx with
        | none => exact ⟨[], by simp⟩
        | some cs =>
            cases cs with
            | nil => exact ⟨[], by simp⟩
            | cons c rest =>
                cases rest with
                | cons d rest' => exact ⟨[], by simp⟩
                | nil =>
                    simp only [setLabel]
                    by_cases hp : p = c.1
                    · subst hp; exact ⟨[tx], by simp⟩
                    · exact ⟨[], by simp [hp]⟩
      obtain ⟨s0, hs0⟩ := this
      exact ⟨s0 ++ s, by rw [hs, hs0, List.append_assoc]⟩

theorem assign_fold_mem (fm : FMap) :
    ∀ (l : List String) (acc : List String × Labels) (tx : String) (c : Cand),
      tx ∈ l → alookup fm tx = some [c] →
      tx ∈ ((l.foldl (assignStep fm) acc).2 c.1).taxa := by
  intro l
  induction l with
  | nil => intro acc tx c h; cases h
  | cons hd l ih =>
      intro acc tx c hmem hl
      rcases List.mem_cons.mp hmem with h1 | h2
      · subst h1
        rw [List.foldl_cons, assignStep_of_placed fm acc tx c hl]
        obtain ⟨s, hs⟩ := assign_fold_append_only fm l
          (acc.1 ++ [tx],
            setLabel acc.2 c.1
              ⟨(acc.2 c.1).support, (acc.2 c.1).taxa ++ [tx], (acc.2 c.1).aux⟩) c.1
        rw [hs]
        simp [setLabel]
      · rw [List.foldl_cons]
        exact ih (assignStep fm acc hd) tx c h2 hl

/-- C7: for every taxon with exactly one candidate, unambiguous assignment
appends the taxon name to that node's taxon tokens, leaves every node's
support value and auxiliary text untouched, never removes or overwrites an
existing token (the old token list is always a lead segment of the new one),
and returns exactly the taxa placed this way. -/
theorem c7_unambiguous_assignment (fm : FMap) (L : Labels) :
    (assignTaxonLabels fm L).1 = (sortTaxa (fm.map (·.1))).filter (placedB fm)
    ∧ (∀ p, ((assignTaxonLabels fm L).2 p).support = (L p).support
          ∧ ((assignTaxonLabels fm L).2 p).aux = (L p).aux)
    ∧ (∀ p, ∃ s, ((assignTaxonLabels fm L).2 p).taxa = (L p).taxa ++ s)
    ∧ (∀ tx c, tx ∈ sortTaxa (fm.map (·.1)) → alookup fm tx = some [c] →
        tx ∈ ((assignTaxonLabels fm L).2 c.1).taxa) := by
  refine ⟨?_, ?_, ?_, ?_⟩
  · have := assign_fold_placed fm (sortTaxa (fm.map (·.1))) ([], L)
    simpa [assignTaxonLabels] using this
  · intro p
    exact assign_fold_frame fm (sortTaxa (fm.map (·.1))) ([], L) p
  · intro p
    exact assign_fold_append_only fm (sortTaxa (fm.map (·.1))) ([], L) p
  · intro tx c hmem hl
    exact assign_fold_mem fm (sortTaxa (fm.map (·.1))) ([], L) tx c hmem hl

/-- The candidate map produced by the placement search on `treeAB`. -/
def fmAB : FMap := [("d__D1", [([], 1, 1, 1)])]

/-- Witness for C7: the sole candidate of `d__D1` receives its token. -/
theorem c7_witness : "d__D1" ∈ ((assignTaxonLabels fmAB emptyLabels).2 []).taxa :=
  (c7_unambiguous_assignment fmAB emptyLabels).2.2.2 "d__D1" ([], 1, 1, 1)
    (by decide) (by decide)

theorem leavesOfList_decomp :
    ∀ (cs : List PTree) (i : Nat) (c : PTree), cs.get? i = some c →
      ∃ A B, leavesOfList cs = A ++ leavesOf c ++ B := by
  intro cs
  induction cs with
  | nil => intro i c h; cases h
  | cons hd tl ih =>
      intro i c h
      cases i with
      | zero =>
          cases h
          exact ⟨[], leavesOfList tl, by simp [leavesOfList]⟩
      | succ j =>
          obtain ⟨A, B, hAB⟩ := ih j c h
          exact ⟨leavesOf hd ++ A, B, by simp [leavesOfList, hAB]⟩

theorem leavesOf_subtree_decomp :
    ∀ (p : NPath) (t st : PTree), subtreeAt p t = some st →
      ∃ A B, leavesOf t = A ++ leavesOf st ++ B := by
  intro p
  induction p with
  | nil => intro t st h; cases h; exact ⟨[], [], by simp⟩
  | cons i p ih =>
      intro t st h
      cases t with
      | leaf n => cases h
      | node cs =>
          unfold subtreeAt at h
          cases hc : cs.get? i with
          | none => rw [hc] at h; cases h
          | some c =>
              rw [hc] at h
              have h' : subtreeAt p c = some st := h
              obtain ⟨A1, B1, h1⟩ := ih c st h'
              obtain ⟨A0, B0, h0⟩ := leavesOfList_decomp cs i c hc
              refine ⟨A0 ++ A1, B1 ++ B0, ?_⟩
              show leavesOfList cs = _
              rw [h0, h1]
              simp

theorem length_filter_le_of_imp {α : Type} (l : List α) (p q : α → Bool)
    (h : ∀ a, p a = true → q a = true) :
    (l.filter p).length ≤ (l.filter q).length :=
  (List.monotone_filter_right l h).length_le

theorem taxaCount_le_leavesWithNamed (t : PTree) (τ : String → List String)
    (p : NPath) (rank : Nat) (taxon : String) :
    taxaCount t τ p rank taxon ≤ leavesWithNamedTaxonAt t τ p rank := by
  unfold taxaCount leavesWithNamedTaxonAt
  cases hsub : subtreeAt p t with
  | none => exact Nat.le_refl 0
  | some stree =>
      apply length_filter_le_of_imp
      intro a ha
      have ha' : ((τ a)[rank]? == some taxon) = true ∧ (!(taxon == prefixAt rank)) = true := by
        simpa using ha
      rw [beq_iff_eq.mp ha'.1]
      simpa using ha'.2

theorem taxaCount_le_totalTaxa (t : PTree) (τ : String → List String)
    (p : NPath) (rank : Nat) (taxon : String) (hnd : (leavesOf t).Nodup)
    (stree : PTree) (hp : subtreeAt p t = some stree) :
    taxaCount t τ p rank taxon ≤ totalTaxa t τ rank taxon := by
  unfold taxaCount totalTaxa
  rw [hp]
  obtain ⟨A, B, hAB⟩ := leavesOf_subtree_decomp p t stree hp
  have hmono : ((leavesOf stree).filter
      (fun l => (τ l)[rank]? == some taxon && !(taxon == prefixAt rank))).length
      ≤ ((leavesOf stree).filter (fun l => (τ l)[rank]? == some taxon)).length := by
    apply length_filter_le_of_imp
    intro a ha
    have ha' : ((τ a)[rank]? == some taxon) = true ∧ (!(taxon == prefixAt rank)) = true := by
      simpa using ha
    exact ha'.1
  have hnd' : ((leavesOf t).filter (fun l => (τ l)[rank]? == some taxon)).Nodup :=
    List.Nodup.filter _ hnd
  rw [List.Nodup.dedup hnd']
  refine hmono.trans ?_
  rw [hAB, List.filter_append, List.filter_append, List.length_append, List.length_append]
  omega

theorem totalTaxa_pos (t : PTree) (τ : String → List String)
    (p : NPath) (rank : Nat) (taxon : String)
    (h : 0 < taxaCount t τ p rank taxon) : 0 < totalTaxa t τ rank taxon := by
  unfold taxaCount at h
  unfold totalTaxa
  cases hsub : subtreeAt p t with
  | none => rw [hsub] at h; cases h
  | some stree =>
      rw [hsub] at h
      obtain ⟨a, ha⟩ := List.exists_mem_of_length_pos h
      have hmem := List.mem_filter.mp ha
      obtain ⟨A, B, hAB⟩ := leavesOf_subtree_decomp p t stree hsub
      have hat : a ∈ leavesOf t := by
        rw [hAB]
        simp [hmem.1]
      have hm2 : ((τ a)[rank]? == some taxon) = true ∧ (!(taxon == prefixAt rank)) = true := by
        simpa using hmem.2
      have : a ∈ (leavesOf t).filter (fun l => (τ l)[rank]? == some taxon) :=
        List.mem_filter.mpr ⟨hat, hm2.1⟩
      have : a ∈ ((leavesOf t).filter (fun l => (τ l)[rank]? == some taxon)).dedup :=
        List.mem_dedup.mpr this
      exact List.length_pos.mpr (fun hnil => by rw [hnil] at this; cases this)

/-- C2: a node of the search region with `taxa_in_lineage == 0` or
`num_leaves_with_taxa == 0` contributes no score and leaves the candidate
state unchanged; otherwise its score is exactly
`precision = taxa_in_lineage / num_leaves_with_taxa`,
`recall = taxa_in_lineage / total_taxa`,
`F = 2·precision·recall / (precision + recall)`, all three values lie in
`(0, 1]`, and the node replaces the candidate list on a strictly greater F
and is appended on a tie. -/
theorem c2_fmeasure_score (t : PTree) (τ : String → List String)
    (rank : Nat) (taxon : String) (p : NPath) (st : ℚ × List Cand)
    (hnd : (leavesOf t).Nodup) (stree : PTree) (hp : subtreeAt p t = some stree) :
    (taxaCount t τ p rank taxon = 0 ∨ leavesWithNamedTaxonAt t τ p rank = 0 →
        evalStep t τ rank taxon (totalTaxa t τ rank taxon) st p = st)
    ∧ (0 < taxaCount t τ p rank taxon →
        let pr : ℚ := (taxaCount t τ p rank taxon : ℚ) / (leavesWithNamedTaxonAt t τ p rank : ℚ)
        let rc : ℚ := (taxaCount t τ p rank taxon : ℚ) / (totalTaxa t τ rank taxon : ℚ)
        let fv : ℚ := 2 * pr * rc / (pr + rc)
        (0 < pr ∧ pr ≤ 1) ∧ (0 < rc ∧ rc ≤ 1) ∧ (0 < fv ∧ fv ≤ 1)
        ∧ evalStep t τ rank taxon (totalTaxa t τ rank taxon) st p =
            (if st.1 < fv then (fv, [(p, fv, pr, rc)])
             else if fv = st.1 then (st.1, st.2 ++ [(p, fv, pr, rc)])
             else st)) := by
  constructor
  · intro h0
    unfold evalStep
    rcases h0 with h0 | h0 <;> simp [h0]
  · intro hpos
    have hnlt : 0 < leavesWithNamedTaxonAt t τ p rank :=
      Nat.lt_of_lt_of_le hpos (taxaCount_le_leavesWithNamed t τ p rank taxon)
    have htot : 0 < totalTaxa t τ rank taxon := totalTaxa_pos t τ p rank taxon hpos
    have hletot : taxaCount t τ p rank taxon ≤ totalTaxa t τ rank taxon :=
      taxaCount_le_totalTaxa t τ p rank taxon hnd stree hp
    have hlenlt : taxaCount t τ p rank taxon ≤ leavesWithNamedTaxonAt t τ p rank :=
      taxaCount_le_leavesWithNamed t τ p rank taxon
    intro pr rc fv
    have hprq : (0 : ℚ) < pr := by
      apply div_pos <;> exact_mod_cast (by omega : (0:Nat) < _)
    have hrcq : (0 : ℚ) < rc := by
      apply div_pos <;> exact_mod_cast (by omega : (0:Nat) < _)
    have hpr1 : pr ≤ 1 := by
      rw [div_le_one (by exact_mod_cast hnlt)]
      exact_mod_cast hlenlt
    have hrc1 : rc ≤ 1 := by
      rw [div_le_one (by exact_mod_cast htot)]
      exact_mod_cast hletot
    have hfv0 : 0 < fv := by
      apply div_pos (by nlinarith) (by linarith)
    have hfv1 : fv ≤ 1 := by
      rw [div_le_one (by linarith)]
      nlinarith
    refine ⟨⟨hprq, hpr1⟩, ⟨hrcq, hrc1⟩, ⟨hfv0, hfv1⟩, ?_⟩
    have hne : taxaCount t τ p rank taxon ≠ 0 ∧ leavesWithNamedTaxonAt t τ p rank ≠ 0 :=
      ⟨Nat.pos_iff_ne_zero.mp hpos, Nat.pos_iff_ne_zero.mp hnlt⟩
    simp only [evalStep]
    rw [if_pos hne]

/-- Witness for C2 at the root of `treeHV` for phylum `p__tx`. -/
theorem c2_witness :
    (0 < (taxaCount treeHV taxHV [] 1 "p__tx" : ℚ) / (leavesWithNamedTaxonAt treeHV taxHV [] 1 : ℚ)
      ∧ (taxaCount treeHV taxHV [] 1 "p__tx" : ℚ) / (leavesWithNamedTaxonAt treeHV taxHV [] 1 : ℚ) ≤ 1) :=
  (((c2_fmeasure_score treeHV taxHV 1 "p__tx" [] (-1, []) (by decide) treeHV rfl).2
    (by decide)).1)

/-- The F-measure component of a candidate. -/
def fOf (c : Cand) : ℚ := c.2.1

theorem le_foldl_max : ∀ (l : List ℚ) (m : ℚ), m ≤ l.foldl max m := by
  intro l
  induction l with
  | nil => intro m; exact le_refl m
  | cons x l ih =>
      intro m
      exact le_trans (le_max_left m x) (ih (max m x))

theorem foldl_max_ge_mem : ∀ (l : List ℚ) (m x : ℚ), x ∈ l → x ≤ l.foldl max m := by
  intro l
  induction l with
  | nil => intro m x h; cases h
  | cons y l ih =>
      intro m x h
      rcases List.mem_cons.mp h with h1 | h2
      · subst h1
        exact le_trans (le_max_right m x) (le_foldl_max l (max m x))
      · exact ih (max m y) x h2

theorem foldl_max_mem : ∀ (l : List ℚ) (m : ℚ), l.foldl max m = m ∨ l.foldl max m ∈ l := by
  intro l
  induction l with
  | nil => intro m; exact Or.inl rfl
  | cons x l ih =>
      intro m
      rcases ih (max m x) with h | h
      · rw [List.foldl_cons, h]
        rcases max_choice m x with hm | hm
        · exact Or.inl hm
        · exact Or.inr (by rw [hm]; exact List.mem_cons_self x l)
      · exact Or.inr (List.mem_cons_of_mem x h)

theorem scoredOf_cons_pos (t : PTree) (τ : String → List String) (rank : Nat)
    (taxon : String) (p : NPath) (ps : List NPath)
    (h : taxaCount t τ p rank taxon ≠ 0 ∧ leavesWithNamedTaxonAt t τ p rank ≠ 0) :
    scoredOf t τ rank taxon (p :: ps) =
      (p, 2 * ((taxaCount t τ p rank taxon : ℚ) / (leavesWithNamedTaxonAt t τ p rank : ℚ))
            * ((taxaCount t τ p rank taxon : ℚ) / (totalTaxa t τ rank taxon : ℚ))
            / ((taxaCount t τ p rank taxon : ℚ) / (leavesWithNamedTaxonAt t τ p rank : ℚ)
                + (taxaCount t τ p rank taxon : ℚ) / (totalTaxa t τ rank taxon : ℚ)),
          (taxaCount t τ p rank taxon : ℚ) / (leavesWithNamedTaxonAt t τ p rank : ℚ),
          (taxaCount t τ p rank taxon : ℚ) / (totalTaxa t τ rank taxon : ℚ))
        :: scoredOf t τ rank taxon ps := by
  simp only [scoredOf, List.filterMap_cons]
  rw [if_pos h]

theorem scoredOf_cons_neg (t : PTree) (τ : String → List String) (rank : Nat)
    (taxon : String) (p : NPath) (ps : List NPath)
    (h : ¬(taxaCount t τ p rank taxon ≠ 0 ∧ leavesWithNamedTaxonAt t τ p rank ≠ 0)) :
    scoredOf t τ rank taxon (p :: ps) = scoredOf t τ rank taxon ps := by
  simp only [scoredOf, List.filterMap_cons]
  rw [if_neg h]

theorem evalFold_char (t : PTree) (τ : String → List String) (rank : Nat) (taxon : String) :
    ∀ (ps : List NPath) (m : ℚ) (acc : List Cand),
      ps.foldl (evalStep t τ rank taxon (totalTaxa t τ rank taxon)) (m, acc)
        = (((scoredOf t τ rank taxon ps).map fOf).foldl max m,
           (if ((scoredOf t τ rank taxon ps).map fOf).foldl max m = m then acc else [])
             ++ (scoredOf t τ rank taxon ps).filter
                 (fun c => decide (fOf c = ((scoredOf t τ rank taxon ps).map fOf).foldl max m))) := by
  intro ps
  induction ps with
  | nil => intro m acc; simp [scoredOf]
  | cons p ps ih =>
      intro m acc
      rw [List.foldl_cons]
      by_cases h : taxaCount t τ p rank taxon ≠ 0 ∧ leavesWithNamedTaxonAt t τ p rank ≠ 0
      · rw [scoredOf_cons_pos t τ rank taxon p ps h]
        set pr : ℚ := (taxaCount t τ p rank taxon : ℚ) / (leavesWithNamedTaxonAt t τ p rank : ℚ) with hpr
        set rc : ℚ := (taxaCount t τ p rank taxon : ℚ) / (totalTaxa t τ rank taxon : ℚ) with hrc
        set fv : ℚ := 2 * pr * rc / (pr + rc) with hfv
        set c : Cand := (p, fv, pr, rc) with hc
        have hstep : evalStep t τ rank taxon (totalTaxa t τ rank taxon) (m, acc) p =
            (if m < fv then (fv, [c]) else if fv = m then (m, acc ++ [c]) else (m, acc)) := by
          simp only [evalStep]
          rw [if_pos h]
        rw [hstep]
        have hfc : fOf c = fv := rfl
        have hmap : (c :: scoredOf t τ rank taxon ps).map fOf
            = fv :: (scoredOf t τ rank taxon ps).map fOf := by
          simp [hfc]
        by_cases h1 : m < fv
        · rw [if_pos h1, ih fv [c], hmap]
          have hmax : List.foldl max m (fv :: (scoredOf t τ rank taxon ps).map fOf)
              = List.foldl max fv ((scoredOf t τ rank taxon ps).map fOf) := by
            rw [List.foldl_cons, max_eq_right (le_of_lt h1)]
          rw [hmax]
          set M := List.foldl max fv ((scoredOf t τ rank taxon ps).map fOf) with hMdef
          have hMfv : fv ≤ M := le_foldl_max _ fv
          have hMm : M ≠ m := fun hEq => absurd (hEq ▸ hMfv) (not_le.mpr h1)
          rw [if_neg hMm, List.filter_cons]
          by_cases h2 : fv = M
          · simp [hfc, h2]
          · simp [hfc, h2, Ne.symm h2]
        · rw [if_neg h1]
          by_cases h2 : fv = m
          · rw [if_pos h2, ih m (acc ++ [c]), hmap]
            have hmax : List.foldl max m (fv :: (scoredOf t τ rank taxon ps).map fOf)
                = List.foldl max m ((scoredOf t τ rank taxon ps).map fOf) := by
              rw [List.foldl_cons, h2, max_self]
            rw [hmax]
            set M := List.foldl max m ((scoredOf t τ rank taxon ps).map fOf) with hMdef
            rw [List.filter_cons]
            by_cases h3 : M = m
            · simp [hfc, h2, h3]
            · have hmneM : m ≠ M := Ne.symm h3
              simp [hfc, h2, h3, hmneM]
          · rw [if_neg h2, ih m acc, hmap]
            have hlt : fv < m := lt_of_le_of_ne (not_lt.mp h1) h2
            have hmax : List.foldl max m (fv :: (scoredOf t τ rank taxon ps).map fOf)
                = List.foldl max m ((scoredOf t τ rank taxon ps).map fOf) := by
              rw [List.foldl_cons, max_eq_left (le_of_lt hlt)]
            rw [hmax]
            set M := List.foldl max m ((scoredOf t τ rank taxon ps).map fOf) with hMdef
            have hmM : m ≤ M := le_foldl_max _ m
            have hfvM : fv ≠ M := ne_of_lt (lt_of_lt_of_le hlt hmM)
            rw [List.filter_cons]
            simp [hfc, hfvM]
      · have hstep : evalStep t τ rank taxon (totalTaxa t τ rank taxon) (m, acc) p = (m, acc) := by
          simp only [evalStep]
          rw [if_neg h]
        rw [hstep, ih m acc, scoredOf_cons_neg t τ rank taxon p ps h]

theorem scored_f_pos (t : PTree) (τ : String → List String) (rank : Nat)
    (taxon : String) (ps : List NPath) (c : Cand)
    (hc : c ∈ scoredOf t τ rank taxon ps) : 0 < fOf c := by
  obtain ⟨p, _, hp⟩ := List.mem_filterMap.mp hc
  by_cases h : taxaCount t τ p rank taxon ≠ 0 ∧ leavesWithNamedTaxonAt t τ p rank ≠ 0
  · rw [if_pos h] at hp
    have htil : 0 < taxaCount t τ p rank taxon := Nat.pos_of_ne_zero h.1
    have hnlt : 0 < leavesWithNamedTaxonAt t τ p rank := Nat.pos_of_ne_zero h.2
    have htot : 0 < totalTaxa t τ rank taxon := totalTaxa_pos t τ p rank taxon htil
    have hpr : (0:ℚ) < (taxaCount t τ p rank taxon : ℚ) / (leavesWithNamedTaxonAt t τ p rank : ℚ) := by
      apply div_pos <;> exact_mod_cast (by omega : (0:Nat) < _)
    have hrc : (0:ℚ) < (taxaCount t τ p rank taxon : ℚ) / (totalTaxa t τ rank taxon : ℚ) := by
      apply div_pos <;> exact_mod_cast (by omega : (0:Nat) < _)
    cases hp
    show (0:ℚ) < 2 * _ * _ / _
    apply div_pos (by nlinarith) (by linarith)
  · rw [if_neg h] at hp
    cases hp

/-- C4: after the search, a taxon's candidate list holds exactly the nodes of
its search region achieving the maximum F value, in subtree-traversal
(preorder) order: a strictly greater F replaces the list, a tie appends. -/
theorem c4_candidates_are_argmax (t : PTree) (τ : String → List String)
    (rank : Nat) (taxon : String) (root : NPath) :
    candidatesFor t τ rank taxon root =
      (scoredOf t τ rank taxon (preorderPathsAt t root)).filter
        (fun c => decide (fOf c =
          (((scoredOf t τ rank taxon (preorderPathsAt t root)).map fOf).foldl max (-1))))
    ∧ (∀ c ∈ scoredOf t τ rank taxon (preorderPathsAt t root),
        fOf c ≤ ((scoredOf t τ rank taxon (preorderPathsAt t root)).map fOf).foldl max (-1))
    ∧ (scoredOf t τ rank taxon (preorderPathsAt t root) ≠ [] →
        (((scoredOf t τ rank taxon (preorderPathsAt t root)).map fOf).foldl max (-1))
          ∈ (scoredOf t τ rank taxon (preorderPathsAt t root)).map fOf) := by
  refine ⟨?_, ?_, ?_⟩
  · unfold candidatesFor
    rw [evalFold_char t τ rank taxon (preorderPathsAt t root) (-1) []]
    by_cases h : ((scoredOf t τ rank taxon (preorderPathsAt t root)).map fOf).foldl max (-1) = -1
    · rw [if_pos h]
      simp
    · rw [if_neg h]
      simp
  · intro c hc
    exact foldl_max_ge_mem _ (-1) (fOf c) (List.mem_map_of_mem fOf hc)
  · intro hne
    rcases foldl_max_mem ((scoredOf t τ rank taxon (preorderPathsAt t root)).map fOf) (-1) with h | h
    · obtain ⟨c, hc⟩ := List.exists_mem_of_ne_nil _ hne
      have hpos := scored_f_pos t τ rank taxon (preorderPathsAt t root) c hc
      have hle := foldl_max_ge_mem ((scoredOf t τ rank taxon (preorderPathsAt t root)).map fOf)
        (-1) (fOf c) (List.mem_map_of_mem fOf hc)
      rw [h] at hle
      linarith
    · exact h

/-- Witness for C4: the maximal F value over the scored region of `p__tx` in
`treeHV` is attained. -/
theorem c4_witness :
    (((scoredOf treeHV taxHV 1 "p__tx" (preorderPathsAt treeHV [])).map fOf).foldl max (-1))
      ∈ (scoredOf treeHV taxHV 1 "p__tx" (preorderPathsAt treeHV [])).map fOf :=
  (c4_candidates_are_argmax treeHV taxHV 1 "p__tx" []).2.2 (by decide)

theorem alookup_aset (fm : FMap) (k : String) (v : List Cand) (kk : String) :
    alookup (aset fm k v) kk = if kk = k then some v else alookup fm kk := by
  induction fm with
  | nil =>
      by_cases h : kk = k
      · subst h
        simp [aset, alookup, List.find?]
      · rw [if_neg h]
        simp only [aset, alookup, List.find?]
        rw [beq_eq_false_iff_ne.mpr (Ne.symm h)]
  | cons kv rest ih =>
      by_cases hk : kv.1 = k
      · have hset : aset (kv :: rest) k v = (k, v) :: rest := by
          simp [aset, hk]
        rw [hset]
        by_cases h : kk = k
        · subst h
          simp [alookup, List.find?]
        · rw [if_neg h]
          simp only [alookup, List.find?]
          rw [beq_eq_false_iff_ne.mpr (Ne.symm h)]
          rw [beq_eq_false_iff_ne.mpr (hk ▸ Ne.symm h : kv.1 ≠ kk)]
      · have hset : aset (kv :: rest) k v = kv :: aset rest k v := by
          simp [aset, beq_eq_false_iff_ne.mpr hk]
        rw [hset]
        simp only [alookup, List.find?]
        cases hb : (kv.1 == kk) with
        | true =>
            have hkk : kk ≠ k := by
              intro he
              subst he
              exact hk (beq_iff_eq.mp hb)
            rw [if_neg hkk]
        | false =>
            have ih' := ih
            simp only [alookup] at ih'
            rw [ih']

theorem preorderPathsAt_head (t : PTree) (st : PTree) (p : NPath)
    (hp : subtreeAt p t = some st) : p ∈ preorderPathsAt t p := by
  unfold preorderPathsAt
  rw [hp]
  show p ∈ List.map (fun q => p ++ q) (preorderPaths st)
  have hhd : ∃ l, preorderPaths st = [] :: l := by
    cases st with
    | leaf n => exact ⟨[], rfl⟩
    | node cs => exact ⟨preorderPathsList 0 cs, rfl⟩
  obtain ⟨l, hl⟩ := hhd
  rw [hl]
  simp

theorem candidatesFor_ne_nil_of_scored (t : PTree) (τ : String → List String)
    (rank : Nat) (taxon : String) (root : NPath)
    (hne : scoredOf t τ rank taxon (preorderPathsAt t root) ≠ []) :
    candidatesFor t τ rank taxon root ≠ [] := by
  unfold candidatesFor
  rw [evalFold_char t τ rank taxon (preorderPathsAt t root) (-1) []]
  set scored := scoredOf t τ rank taxon (preorderPathsAt t root) with hscored
  have hMmem : (scored.map fOf).foldl max (-1) ∈ scored.map fOf := by
    rcases foldl_max_mem (scored.map fOf) (-1) with h | h
    · obtain ⟨c, hc⟩ := List.exists_mem_of_ne_nil _ hne
      have hpos := scored_f_pos t τ rank taxon (preorderPathsAt t root) c hc
      have hle := foldl_max_ge_mem (scored.map fOf) (-1) (fOf c) (List.mem_map_of_mem fOf hc)
      rw [h] at hle
      linarith
    · exact h
  obtain ⟨c, hc, hceq⟩ := List.mem_map.mp hMmem
  have hcf : c ∈ scored.filter (fun c => decide (fOf c = (scored.map fOf).foldl max (-1))) :=
    List.mem_filter.mpr ⟨hc, by simp [hceq]⟩
  intro hnil
  rw [List.eq_nil_iff_forall_not_mem] at hnil
  exact hnil c (by simp [List.mem_append, hcf])

theorem mem_taxaAtRank (t : PTree) (τ : String → List String) (rank : Nat)
    (tx : String) (h : tx ∈ taxaAtRank t τ rank) :
    ∃ l ∈ leavesOf t, (τ l)[rank]? = some tx ∧ (tx == prefixAt rank) = false := by
  unfold taxaAtRank at h
  have h1 := List.mem_dedup.mp h
  have h2 := List.mem_filter.mp h1
  obtain ⟨l, hl, hget⟩ := List.mem_filterMap.mp h2.1
  exact ⟨l, hl, hget, by simpa using h2.2⟩

theorem taxaCount_root_pos (t : PTree) (τ : String → List String) (rank : Nat)
    (tx : String) (h : tx ∈ taxaAtRank t τ rank) :
    0 < taxaCount t τ [] rank tx := by
  obtain ⟨l, hl, hget, hpre⟩ := mem_taxaAtRank t τ rank tx h
  unfold taxaCount
  have hsub : subtreeAt [] t = some t := rfl
  rw [hsub]
  apply List.length_pos.mpr
  apply List.ne_nil_of_mem
  exact List.mem_filter.mpr ⟨hl, by simp [hget, hpre]⟩

theorem taxaInTree_pos (t : PTree) (τ : String → List String) (rank : Nat)
    (tx : String) (h : tx ∈ taxaAtRank t τ rank) :
    0 < taxaInTree t τ tx := by
  obtain ⟨l, hl, hget, _⟩ := mem_taxaAtRank t τ rank tx h
  have hmem : tx ∈ τ l := List.getElem?_mem hget
  have hcount : 0 < (τ l).count tx := List.count_pos_iff.mpr hmem
  have hsum : (τ l).count tx ≤ taxaInTree t τ tx :=
    List.le_sum_of_mem (List.mem_map_of_mem (fun l => (τ l).count tx) hl)
  omega

theorem scoredOf_ne_nil_of_root (t : PTree) (τ : String → List String) (rank : Nat)
    (tx : String) (root : NPath) (st : PTree) (hst : subtreeAt root t = some st)
    (hcnt : 0 < taxaCount t τ root rank tx) :
    scoredOf t τ rank tx (preorderPathsAt t root) ≠ [] := by
  have hmem : root ∈ preorderPathsAt t root := preorderPathsAt_head t st root hst
  have hnlt := taxaCount_le_leavesWithNamed t τ root rank tx
  have hcond : taxaCount t τ root rank tx ≠ 0 ∧ leavesWithNamedTaxonAt t τ root rank ≠ 0 :=
    ⟨by omega, by omega⟩
  intro hnil
  unfold scoredOf at hnil
  have hnone := (List.filterMap_eq_nil_iff.mp hnil) root hmem
  rw [if_pos hcond] at hnone
  cases hnone

/-- C9: for every taxon the placement search actually processes, the chosen
search root (after the half-count escape clause) contains at least one
subtree leaf carrying the taxon, its candidate list is non-empty and is
recorded in the map; and entries of the candidate map are never empty
lists. -/
theorem c9_processed_taxa_have_candidates (t : PTree) (τ : String → List String)
    (fm : FMap) (rank : Nat) (tx : String) (root : NPath) :
    ((∀ k cs, alookup fm k = some cs → cs ≠ []) →
        ∀ k cs, alookup (processTaxon t τ fm rank tx) k = some cs → cs ≠ [])
    ∧ (tx ∈ taxaAtRank t τ rank →
       searchRootFor t τ fm rank tx = some root →
       (∃ st, subtreeAt root t = some st) →
       0 < taxaCount t τ root rank tx
       ∧ candidatesFor t τ rank tx root ≠ []
       ∧ alookup (processTaxon t τ fm rank tx) tx = some (candidatesFor t τ rank tx root)) := by
  constructor
  · intro hinv k cs hk
    unfold processTaxon at hk
    cases hroot : searchRootFor t τ fm rank tx with
    | none => rw [hroot] at hk; exact hinv k cs hk
    | some r =>
        rw [hroot] at hk
        replace hk : alookup (addCandidates fm tx (candidatesFor t τ rank tx r)) k = some cs := hk
        unfold addCandidates at hk
        by_cases hemp : (candidatesFor t τ rank tx r).isEmpty
        · rw [if_pos hemp] at hk; exact hinv k cs hk
        · rw [if_neg hemp] at hk
          rw [alookup_aset fm tx (candidatesFor t τ rank tx r) k] at hk
          by_cases hkt : k = tx
          · rw [if_pos hkt] at hk
            cases hk
            exact fun hn => hemp (by rw [hn]; rfl)
          · rw [if_neg hkt] at hk
            exact hinv k cs hk
  · intro htx hroot hvalid
    have hcnt : 0 < taxaCount t τ root rank tx := by
      unfold searchRootFor at hroot
      by_cases h0 : rank = 0
      · rw [if_pos h0] at hroot
        cases hroot
        subst h0
        exact taxaCount_root_pos t τ 0 tx htx
      · rw [if_neg h0] at hroot
        cases hpar : parentOf t τ rank tx with
        | none =>
            rw [hpar] at hroot
            exact Option.noConfusion (hroot : (none : Option NPath) = some root)
        | some ptx =>
            rw [hpar] at hroot
            replace hroot : (match alookup fm ptx with
              | none => (none : Option NPath)
              | some plist =>
                some (if 2 * taxaCount t τ
                        (if (plist.map (·.1)).length = 1 then (plist.map (·.1)).headD []
                         else mrcaOf t (plist.map (·.1))) rank tx < taxaInTree t τ tx
                      then []
                      else (if (plist.map (·.1)).length = 1 then (plist.map (·.1)).headD []
                            else mrcaOf t (plist.map (·.1))))) = some root := hroot
            cases hpl : alookup fm ptx with
            | none =>
                rw [hpl] at hroot
                exact Option.noConfusion (hroot : (none : Option NPath) = some root)
            | some plist =>
                rw [hpl] at hroot
                replace hroot : some (if 2 * taxaCount t τ
                        (if (plist.map (·.1)).length = 1 then (plist.map (·.1)).headD []
                         else mrcaOf t (plist.map (·.1))) rank tx < taxaInTree t τ tx
                      then ([] : NPath)
                      else (if (plist.map (·.1)).length = 1 then (plist.map (·.1)).headD []
                            else mrcaOf t (plist.map (·.1)))) = some root := hroot
                set root0 := if (plist.map (·.1)).length = 1 then (plist.map (·.1)).headD []
                    else mrcaOf t (plist.map (·.1)) with hr0
                have hroot2 := Option.some.inj hroot
                by_cases hesc : 2 * taxaCount t τ root0 rank tx < taxaInTree t τ tx
                · rw [if_pos hesc] at hroot2
                  rw [← hroot2]
                  exact taxaCount_root_pos t τ rank tx htx
                · rw [if_neg hesc] at hroot2
                  rw [← hroot2]
                  have h1 := taxaInTree_pos t τ rank tx htx
                  omega
    obtain ⟨st, hst⟩ := hvalid
    have hne : candidatesFor t τ rank tx root ≠ [] :=
      candidatesFor_ne_nil_of_scored t τ rank tx root
        (scoredOf_ne_nil_of_root t τ rank tx root st hst hcnt)
    refine ⟨hcnt, hne, ?_⟩
    unfold processTaxon
    rw [hroot]
    show alookup (addCandidates fm tx (candidatesFor t τ rank tx root)) tx
      = some (candidatesFor t τ rank tx root)
    unfold addCandidates
    rw [if_neg (by simpa [List.isEmpty_iff] using hne)]
    rw [alookup_aset fm tx (candidatesFor t τ rank tx root) tx, if_pos rfl]

/-- Witness for C9: processing phylum `p__tx` of `treeHV` below the placed
parent domain. -/
theorem c9_witness :
    0 < taxaCount treeHV taxHV [] 1 "p__tx"
    ∧ candidatesFor treeHV taxHV 1 "p__tx" [] ≠ []
    ∧ alookup (processTaxon treeHV taxHV [("d__D", [([], 1, 1, 1)])] 1 "p__tx") "p__tx"
        = some (candidatesFor treeHV taxHV 1 "p__tx" []) :=
  (c9_processed_taxa_have_candidates treeHV taxHV [("d__D", [([], 1, 1, 1)])] 1 "p__tx" []).2
    (by decide) (by decide) ⟨treeHV, rfl⟩

theorem mem_insertSorted (x y : String) :
    ∀ (l : List String), x ∈ insertSorted y l ↔ x = y ∨ x ∈ l := by
  intro l
  induction l with
  | nil => simp [insertSorted]
  | cons z l ih =>
      unfold insertSorted
      by_cases h : strLeB y z = true
      · rw [if_pos h]
        simp
      · rw [if_neg h]
        simp only [List.mem_cons, ih]
        tauto

theorem mem_sortStrings (x : String) :
    ∀ (l : List String), x ∈ sortStrings l ↔ x ∈ l := by
  intro l
  induction l with
  | nil => simp [sortStrings]
  | cons y l ih =>
      show x ∈ insertSorted y (sortStrings l) ↔ _
      rw [mem_insertSorted, ih]
      simp

theorem mem_sortTaxa (names : List String) (k : String) (r : Nat) (hr : r < 7)
    (hpre : strStartsWith k (prefixAt r) = true) (hk : k ∈ names) :
    k ∈ sortTaxa names := by
  unfold sortTaxa
  rw [List.mem_flatMap]
  refine ⟨r, by simpa using hr, ?_⟩
  rw [mem_sortStrings]
  exact List.mem_filter.mpr ⟨hk, hpre⟩

theorem alookup_mem_keys (fm : FMap) (k : String) (cs : List Cand)
    (h : alookup fm k = some cs) : k ∈ fm.map (·.1) := by
  unfold alookup at h
  cases hf : fm.find? (fun kv => kv.1 == k) with
  | none => rw [hf] at h; cases h
  | some kv =>
      have hmem := List.mem_of_find?_eq_some hf
      have hkey := List.find?_some hf
      have : kv.1 = k := beq_iff_eq.mp hkey
      rw [← this]
      exact List.mem_map_of_mem (·.1) hmem

theorem resolveOne_other_key (relDist : NPath → ℚ) (medianRd : Nat → ℚ) (tol : ℚ)
    (st : FMap × Labels) (tx k : String) (h : k ≠ tx) :
    alookup (resolveOne relDist medianRd tol st tx).1 k = alookup st.1 k := by
  unfold resolveOne
  cases hl : alookup st.1 tx with
  | none => rfl
  | some cs =>
      match cs with
      | [] => rfl
      | [c] => rfl
      | c1 :: c2 :: rest =>
          show alookup (aset st.1 tx _) k = _
          rw [alookup_aset, if_neg h]

theorem resolveOne_none_key (relDist : NPath → ℚ) (medianRd : Nat → ℚ) (tol : ℚ)
    (st : FMap × Labels) (tx k : String) (h : alookup st.1 k = none) :
    alookup (resolveOne relDist medianRd tol st tx).1 k = none := by
  by_cases hk : k = tx
  · subst hk
    unfold resolveOne
    rw [h]
    exact h
  · rw [resolveOne_other_key relDist medianRd tol st tx k hk]
    exact h

theorem resolveOne_self_key (relDist : NPath → ℚ) (medianRd : Nat → ℚ) (tol : ℚ)
    (st : FMap × Labels) (tx : String) (cs : List Cand)
    (hl : alookup st.1 tx = some cs) (hne : cs ≠ []) :
    ∀ cs', alookup (resolveOne relDist medianRd tol st tx).1 tx = some cs' →
      cs'.length = 1 := by
  intro cs' h
  unfold resolveOne at h
  rw [hl] at h
  match cs, hne with
  | [c], _ =>
      rw [hl] at h
      cases h
      rfl
  | c1 :: c2 :: rest, _ =>
      replace h : alookup (aset st.1 tx [(c1 :: c2 :: rest).getD
          (resolveScan st.2 relDist (rankPrefixes.findIdx (fun s => s == tx.take 3))
            (medianRd (rankPrefixes.findIdx (fun s => s == tx.take 3))) tol
            (c1 :: c2 :: rest)) ([], 0, 0, 0)]) tx = some cs' := h
      rw [alookup_aset, if_pos rfl] at h
      cases h
      rfl

theorem resolveOne_nonempty_inv (relDist : NPath → ℚ) (medianRd : Nat → ℚ) (tol : ℚ)
    (st : FMap × Labels) (tx : String)
    (hinv : ∀ k cs, alookup st.1 k = some cs → cs ≠ []) :
    ∀ k cs, alookup (resolveOne relDist medianRd tol st tx).1 k = some cs → cs ≠ [] := by
  intro k cs h
  by_cases hk : k = tx
  · subst hk
    cases hl : alookup st.1 k with
    | none =>
        rw [resolveOne_none_key relDist medianRd tol st k k hl] at h
        cases h
    | some cs0 =>
        have hne := hinv k cs0 hl
        have hlen := resolveOne_self_key relDist medianRd tol st k cs0 hl hne cs h
        intro hnil
        rw [hnil] at hlen
        cases hlen
  · rw [resolveOne_other_key relDist medianRd tol st tx k hk] at h
    exact hinv k cs h

theorem resolveFold_not_mem (relDist : NPath → ℚ) (medianRd : Nat → ℚ) (tol : ℚ) :
    ∀ (l : List String) (st : FMap × Labels) (k : String), k ∉ l →
      alookup (l.foldl (resolveOne relDist medianRd tol) st).1 k = alookup st.1 k := by
  intro l
  induction l with
  | nil => intro st k _; rfl
  | cons tx l ih =>
      intro st k hk
      rw [List.foldl_cons]
      rw [ih (resolveOne relDist medianRd tol st tx) k (fun h => hk (List.mem_cons_of_mem tx h))]
      exact resolveOne_other_key relDist medianRd tol st tx k
        (fun h => hk (h ▸ List.mem_cons_self tx l))

theorem resolveFold_len_one (relDist : NPath → ℚ) (medianRd : Nat → ℚ) (tol : ℚ) :
    ∀ (l : List String) (st : FMap × Labels),
      (∀ k cs, alookup st.1 k = some cs → cs ≠ []) →
      ∀ k cs, alookup (l.foldl (resolveOne relDist medianRd tol) st).1 k = some cs →
        cs ≠ [] ∧ (k ∈ l → cs.length = 1) := by
  intro l
  induction l with
  | nil =>
      intro st hinv k cs h
      exact ⟨hinv k cs h, fun hk => absurd hk (List.not_mem_nil k)⟩
  | cons tx l ih =>
      intro st hinv k cs h
      rw [List.foldl_cons] at h
      have hinv' := resolveOne_nonempty_inv relDist medianRd tol st tx hinv
      have := ih (resolveOne relDist medianRd tol st tx) hinv' k cs h
      refine ⟨this.1, ?_⟩
      intro hk
      rcases List.mem_cons.mp hk with h1 | h2
      · subst h1
        by_cases hmem : k ∈ l
        · exact this.2 hmem
        · rw [resolveFold_not_mem relDist medianRd tol l
            (resolveOne relDist medianRd tol st k) k hmem] at h
          cases hl : alookup st.1 k with
          | none =>
              rw [resolveOne_none_key relDist medianRd tol st k k hl] at h
              cases h
          | some cs0 =>
              exact resolveOne_self_key relDist medianRd tol st k cs0 hl
                (hinv k cs0 hl) cs h
      · exact this.2 h2

theorem writeStatsGo_error_of (fm : FMap) :
    ∀ (l : List String) (tx : String), tx ∈ l →
      ((alookup fm tx).getD []).length ≠ 1 →
      ∃ e, writeStatsGo fm l = .error e := by
  intro l
  induction l with
  | nil => intro tx h; cases h
  | cons hd tl ih =>
      intro tx htx hbad
      rcases List.mem_cons.mp htx with h1 | h2
      · subst h1
        unfold writeStatsGo
        cases hget : (alookup fm tx).getD [] with
        | nil => exact ⟨_, rfl⟩
        | cons c rest =>
            cases rest with
            | nil =>
                rw [hget] at hbad
                simp at hbad
            | cons d rest' => exact ⟨_, rfl⟩
      · unfold writeStatsGo
        cases hget : (alookup fm hd).getD [] with
        | nil => exact ⟨_, rfl⟩
        | cons c rest =>
            cases rest with
            | nil =>
                obtain ⟨e, he⟩ := ih tx h2 hbad
                rw [he]
                exact ⟨e, rfl⟩
            | cons d rest' => exact ⟨_, rfl⟩

/-- C5: after resolution every taxon present in the candidate map has a list
of length exactly 1 (given the `_fmeasure` invariants that entries are
non-empty and taxa carry a rank placeholder as lead triple); and the
statistics step fails with an explicit error whenever some taxon's candidate
list length is not exactly 1. -/
theorem c5_resolution_and_stats_guard :
    (∀ (relDist : NPath → ℚ) (medianRd : Nat → ℚ) (tol : ℚ) (fm : FMap) (L : Labels),
      (∀ k cs, alookup fm k = some cs → cs ≠ []) →
      (∀ k, k ∈ fm.map (·.1) → ∃ r, r < 7 ∧ strStartsWith k (prefixAt r) = true) →
      ∀ k cs, alookup (resolveAmbiguousPlacements fm L relDist medianRd tol).1 k = some cs →
        cs.length = 1)
    ∧ (∀ (fm : FMap) (tx : String), tx ∈ sortTaxa (fm.map (·.1)) →
        ((alookup fm tx).getD []).length ≠ 1 →
        ∃ e, writeStatisticsTable fm = .error e) := by
  constructor
  · intro relDist medianRd tol fm L hinv hpre k cs h
    unfold resolveAmbiguousPlacements at h
    have hres := resolveFold_len_one relDist medianRd tol
      ((sortTaxa (fm.map (·.1))).reverse) (fm, L) hinv k cs h
    apply hres.2
    rw [List.mem_reverse]
    by_cases hmem : k ∈ sortTaxa (fm.map (·.1))
    · exact hmem
    · have hnm : k ∉ (sortTaxa (fm.map (·.1))).reverse :=
        fun hc => hmem (List.mem_reverse.mp hc)
      rw [resolveFold_not_mem relDist medianRd tol _ (fm, L) k hnm] at h
      have hkeys := alookup_mem_keys fm k cs h
      obtain ⟨r, hr, hp⟩ := hpre k hkeys
      exact absurd (mem_sortTaxa (fm.map (·.1)) k r hr hp hkeys) hmem
  · intro fm tx htx hbad
    exact writeStatsGo_error_of fm (sortTaxa (fm.map (·.1))) tx htx hbad

/-- A candidate map with an ambiguous taxon, for the C5 witness. -/
def fmAmb : FMap := [("p__a", [([0], 1, 1, 1), ([1], 1, 1, 1)])]

/-- Witness for C5: a two-candidate taxon aborts the statistics step. -/
theorem c5_witness : ∃ e, writeStatisticsTable fmAmb = .error e :=
  c5_resolution_and_stats_guard.2 fmAmb "p__a" (by decide) (by decide)

mutual
/-- A tree is well formed when no internal node is childless (dendropy treats
a childless node as a leaf, and every leaf carries a taxon). -/
def wfTree : PTree → Bool
  | .leaf _ => true
  | .node cs => !cs.isEmpty && wfTreeList cs

def wfTreeList : List PTree → Bool
  | [] => true
  | t :: ts => wfTree t && wfTreeList ts
end

mutual
theorem leafPaths_ne_nil : ∀ (t : PTree), wfTree t = true → leafPaths t ≠ []
  | .leaf n, _ => by simp [leafPaths]
  | .node cs, h => by
      unfold wfTree at h
      have h' : (!cs.isEmpty) = true ∧ wfTreeList cs = true := by simpa using h
      have hcs : cs ≠ [] := by
        intro hnil
        rw [hnil] at h'
        simp [List.isEmpty] at h'
      show leafPathsList 0 cs ≠ []
      exact leafPathsList_ne_nil cs hcs h'.2 0

theorem leafPathsList_ne_nil : ∀ (cs : List PTree), cs ≠ [] → wfTreeList cs = true →
    ∀ i, leafPathsList i cs ≠ []
  | [], h, _ => absurd rfl h
  | t :: ts, _, h => by
      intro i
      unfold leafPathsList
      have h' : wfTree t = true ∧ wfTreeList ts = true := by
        unfold wfTreeList at h
        simpa using h
      intro hnil
      rcases List.append_eq_nil.mp hnil with ⟨hmap, _⟩
      exact leafPaths_ne_nil t h'.1 (List.map_eq_nil_iff.mp hmap)
end

theorem wfTreeList_mem : ∀ (cs : List PTree) (c : PTree), wfTreeList cs = true →
    c ∈ cs → wfTree c = true := by
  intro cs
  induction cs with
  | nil => intro c _ hc; cases hc
  | cons t ts ih =>
      intro c h hc
      have h' : wfTree t = true ∧ wfTreeList ts = true := by
        unfold wfTreeList at h
        simpa using h
      rcases List.mem_cons.mp hc with h1 | h2
      · subst h1; exact h'.1
      · exact ih c h'.2 h2

theorem wfTree_subtree : ∀ (p : NPath) (t st : PTree), wfTree t = true →
    subtreeAt p t = some st → wfTree st = true := by
  intro p
  induction p with
  | nil => intro t st hw h; cases h; exact hw
  | cons i p ih =>
      intro t st hw h
      cases t with
      | leaf n => cases h
      | node cs =>
          unfold subtreeAt at h
          cases hc : cs.get? i with
          | none => rw [hc] at h; cases h
          | some c =>
              rw [hc] at h
              have h' : subtreeAt p c = some st := h
              have hwc : wfTree c = true := by
                have hmem : c ∈ cs := by
                  have := List.get?_eq_getElem? cs i
                  rw [this] at hc
                  exact List.getElem?_mem hc
                unfold wfTree at hw
                have hw' : (!cs.isEmpty) = true ∧ wfTreeList cs = true := by simpa using hw
                exact wfTreeList_mem cs c hw'.2 hmem
              exact ih c st hwc h'

theorem leafPathsUnder_ne_nil (t : PTree) (p : NPath) (st : PTree)
    (hst : subtreeAt p t = some st) (hwf : wfTree st = true) :
    leafPathsUnder t p ≠ [] := by
  unfold leafPathsUnder
  rw [hst]
  intro hnil
  exact leafPaths_ne_nil st hwf (List.map_eq_nil_iff.mp hnil)

theorem lcp2_lead : ∀ (a b : NPath), (∃ s, a = lcp2 a b ++ s) ∧ (∃ s, b = lcp2 a b ++ s) := by
  intro a
  induction a with
  | nil => intro b; exact ⟨⟨[], by cases b <;> rfl⟩, ⟨b, by cases b <;> rfl⟩⟩
  | cons x as ih =>
      intro b
      cases b with
      | nil => exact ⟨⟨x :: as, rfl⟩, ⟨[], rfl⟩⟩
      | cons y bs =>
          unfold lcp2
          by_cases h : x = y
          · rw [if_pos h]
            obtain ⟨⟨s1, hs1⟩, ⟨s2, hs2⟩⟩ := ih bs
            exact ⟨⟨s1, by rw [List.cons_append, ← hs1]⟩,
                   ⟨s2, by rw [List.cons_append, ← hs2, h]⟩⟩
          · rw [if_neg h]
            exact ⟨⟨x :: as, rfl⟩, ⟨y :: bs, rfl⟩⟩

theorem lead_lcp2 : ∀ (q a b : NPath), (∃ s, a = q ++ s) → (∃ s, b = q ++ s) →
    ∃ s, lcp2 a b = q ++ s := by
  intro q
  induction q with
  | nil => intro a b _ _; exact ⟨lcp2 a b, rfl⟩
  | cons x q ih =>
      intro a b ⟨s1, hs1⟩ ⟨s2, hs2⟩
      subst hs1
      subst hs2
      show ∃ s, lcp2 (x :: (q ++ s1)) (x :: (q ++ s2)) = x :: q ++ s
      unfold lcp2
      rw [if_pos rfl]
      obtain ⟨s, hs⟩ := ih (q ++ s1) (q ++ s2) ⟨s1, rfl⟩ ⟨s2, rfl⟩
      exact ⟨s, by rw [hs]; rfl⟩

theorem foldl_lcp2_lead : ∀ (qs : List NPath) (q0 : NPath),
    (∃ s, q0 = qs.foldl lcp2 q0 ++ s)
    ∧ (∀ x ∈ qs, ∃ s, x = qs.foldl lcp2 q0 ++ s) := by
  intro qs
  induction qs with
  | nil => intro q0; exact ⟨⟨[], by simp⟩, fun x hx => absurd hx (List.not_mem_nil x)⟩
  | cons y qs ih =>
      intro q0
      rw [List.foldl_cons]
      obtain ⟨⟨s0, hs0⟩, hall⟩ := ih (lcp2 q0 y)
      obtain ⟨⟨s1, hs1⟩, ⟨s2, hs2⟩⟩ := lcp2_lead q0 y
      constructor
      · refine ⟨s0 ++ s1, ?_⟩
        calc q0 = lcp2 q0 y ++ s1 := hs1
          _ = (List.foldl lcp2 (lcp2 q0 y) qs ++ s0) ++ s1 := by rw [← hs0]
          _ = List.foldl lcp2 (lcp2 q0 y) qs ++ (s0 ++ s1) := by rw [List.append_assoc]
      · intro x hx
        rcases List.mem_cons.mp hx with h1 | h2
        · subst h1
          refine ⟨s0 ++ s2, ?_⟩
          calc x = lcp2 q0 x ++ s2 := hs2
            _ = (List.foldl lcp2 (lcp2 q0 x) qs ++ s0) ++ s2 := by rw [← hs0]
            _ = List.foldl lcp2 (lcp2 q0 x) qs ++ (s0 ++ s2) := by rw [List.append_assoc]
        · exact hall x h2

theorem foldl_lcp2_greatest : ∀ (qs : List NPath) (q0 q : NPath),
    (∃ s, q0 = q ++ s) → (∀ x ∈ qs, ∃ s, x = q ++ s) →
    ∃ s, qs.foldl lcp2 q0 = q ++ s := by
  intro qs
  induction qs with
  | nil => intro q0 q h _; exact h
  | cons y qs ih =>
      intro q0 q h hall
      rw [List.foldl_cons]
      exact ih (lcp2 q0 y) q
        (lead_lcp2 q q0 y h (hall y (List.mem_cons_self y qs)))
        (fun x hx => hall x (List.mem_cons_of_mem y hx))

/-- C1: the search root of a taxon at the most general rank is the tree root;
a taxon whose parent has no candidates is skipped outright; one parent
candidate makes that node the root and several make the lowest common
ancestor of the union of the leaves under them the root (`mrcaOf` is a
common ancestor of all those leaves and the deepest one); and in the latter
two cases the tree root is used instead whenever the chosen node's subtree
holds fewer than half of the taxon's tree-wide leaf count. -/
theorem c1_search_root (t : PTree) (τ : String → List String) (fm : FMap)
    (rank : Nat) (tx : String) :
    (rank = 0 → searchRootFor t τ fm rank tx = some [])
    ∧ (∀ ptx, 0 < rank → parentOf t τ rank tx = some ptx → alookup fm ptx = none →
        searchRootFor t τ fm rank tx = none ∧ processTaxon t τ fm rank tx = fm)
    ∧ (∀ ptx plist n, 0 < rank → parentOf t τ rank tx = some ptx →
        alookup fm ptx = some plist → plist.map (·.1) = [n] →
        searchRootFor t τ fm rank tx =
          some (if 2 * taxaCount t τ n rank tx < taxaInTree t τ tx then [] else n))
    ∧ (∀ ptx plist, 0 < rank → parentOf t τ rank tx = some ptx →
        alookup fm ptx = some plist → 2 ≤ plist.length →
        searchRootFor t τ fm rank tx =
          some (if 2 * taxaCount t τ (mrcaOf t (plist.map (·.1))) rank tx
                    < taxaInTree t τ tx
                then [] else mrcaOf t (plist.map (·.1))))
    ∧ (∀ root, searchRootFor t τ fm rank tx = some root →
        processTaxon t τ fm rank tx = addCandidates fm tx (candidatesFor t τ rank tx root))
    ∧ (∀ (ps : List NPath), ps ≠ [] →
        (∀ p ∈ ps, ∃ st, subtreeAt p t = some st ∧ wfTree st = true) →
        (∀ lp ∈ ps.flatMap (leafPathsUnder t), ∃ s, lp = mrcaOf t ps ++ s)
        ∧ (∀ q, (∀ lp ∈ ps.flatMap (leafPathsUnder t), ∃ s, lp = q ++ s) →
            q.length ≤ (mrcaOf t ps).length)) := by
  refine ⟨?_, ?_, ?_, ?_, ?_, ?_⟩
  · intro h0
    unfold searchRootFor
    rw [if_pos h0]
  · intro ptx hr hpar hnone
    have hsr : searchRootFor t τ fm rank tx = none := by
      unfold searchRootFor
      rw [if_neg (by omega), hpar]
      show (match alookup fm ptx with
        | none => (none : Option NPath)
        | some plist =>
          let pnodes := plist.map (·.1)
          let root0 := if pnodes.length = 1 then pnodes.headD [] else mrcaOf t pnodes
          some (if 2 * taxaCount t τ root0 rank tx < taxaInTree t τ tx then [] else root0)) = none
      rw [hnone]
    refine ⟨hsr, ?_⟩
    unfold processTaxon
    rw [hsr]
  · intro ptx plist n hr hpar hsome hmap
    unfold searchRootFor
    rw [if_neg (by omega), hpar]
    show (match alookup fm ptx with
      | none => (none : Option NPath)
      | some plist =>
        let pnodes := plist.map (fun d : Cand => d.1)
        let root0 := if pnodes.length = 1 then pnodes.headD [] else mrcaOf t pnodes
        some (if 2 * taxaCount t τ root0 rank tx < taxaInTree t τ tx then [] else root0)) = _
    rw [hsome]
    show some (if 2 * taxaCount t τ
        (if (plist.map (fun d : Cand => d.1)).length = 1
         then (plist.map (fun d : Cand => d.1)).headD []
         else mrcaOf t (plist.map (fun d : Cand => d.1))) rank tx < taxaInTree t τ tx
        then []
        else (if (plist.map (fun d : Cand => d.1)).length = 1
              then (plist.map (fun d : Cand => d.1)).headD []
              else mrcaOf t (plist.map (fun d : Cand => d.1)))) = _
    rw [show plist.map (fun d : Cand => d.1) = [n] from hmap]
    rfl
  · intro ptx plist hr hpar hsome hlen
    unfold searchRootFor
    rw [if_neg (by omega), hpar]
    show (match alookup fm ptx with
      | none => (none : Option NPath)
      | some plist =>
        let pnodes := plist.map (fun d : Cand => d.1)
        let root0 := if pnodes.length = 1 then pnodes.headD [] else mrcaOf t pnodes
        some (if 2 * taxaCount t τ root0 rank tx < taxaInTree t τ tx then [] else root0)) = _
    rw [hsome]
    show some (if 2 * taxaCount t τ
        (if (plist.map (fun d : Cand => d.1)).length = 1
         then (plist.map (fun d : Cand => d.1)).headD []
         else mrcaOf t (plist.map (fun d : Cand => d.1))) rank tx < taxaInTree t τ tx
        then []
        else (if (plist.map (fun d : Cand => d.1)).length = 1
              then (plist.map (fun d : Cand => d.1)).headD []
              else mrcaOf t (plist.map (fun d : Cand => d.1)))) = _
    have hn1 : ¬ ((plist.map (fun d : Cand => d.1)).length = 1) := by
      rw [List.length_map]; omega
    simp only [if_neg hn1]
  · intro root hroot
    unfold processTaxon
    rw [hroot]
  · intro ps hne hwf
    have hLL : ps.flatMap (leafPathsUnder t) ≠ [] := by
      obtain ⟨p, hp⟩ := List.exists_mem_of_ne_nil ps hne
      obtain ⟨st, hst, hw⟩ := hwf p hp
      have := leafPathsUnder_ne_nil t p st hst hw
      obtain ⟨lp, hlp⟩ := List.exists_mem_of_ne_nil _ this
      intro hnil
      rw [List.eq_nil_iff_forall_not_mem] at hnil
      exact hnil lp (List.mem_flatMap.mpr ⟨p, hp, hlp⟩)
    unfold mrcaOf
    cases hcase : ps.flatMap (leafPathsUnder t) with
    | nil => exact absurd hcase hLL
    | cons q qs =>
        constructor
        · intro lp hlp
          obtain ⟨hq0, hall⟩ := foldl_lcp2_lead qs q
          rcases List.mem_cons.mp hlp with h1 | h2
          · subst h1; exact hq0
          · exact hall lp h2
        · intro qq hqq
          obtain ⟨s, hs⟩ := foldl_lcp2_greatest qs q qq
            (hqq q (List.mem_cons_self q qs))
            (fun x hx => hqq x (List.mem_cons_of_mem q hx))
          show qq.length ≤ (List.foldl lcp2 q qs).length
          rw [hs]
          simp

/-- The candidate map after the domain rank of `treeHV`. -/
def fmDom : FMap := [("d__D", [([], 1, 1, 1)])]

/-- Witness for C1: phylum `p__tx` of `treeHV` is searched below its parent
domain's single placement, subject to the half-count escape clause. -/
theorem c1_witness :
    searchRootFor treeHV taxHV fmDom 1 "p__tx" =
      some (if 2 * taxaCount treeHV taxHV [] 1 "p__tx" < taxaInTree treeHV taxHV "p__tx"
            then [] else []) :=
  (c1_search_root treeHV taxHV fmDom 1 "p__tx").2.2.1 "d__D" [([], 1, 1, 1)] []
    (by decide) (by decide) (by decide) (by decide)

/-- Relative-divergence distance of the `j`-th candidate (`|rd - node.rel_dist|`). -/
def dAt (relDist : NPath → ℚ) (rd : ℚ) (cs : List Cand) (j : Nat) : ℚ :=
  |rd - relDist ((cs.getD j ([], 0, 0, 0)).1)|

theorem scanGo_no_improve (L : Labels) (relDist : NPath → ℚ) (rank : Nat)
    (rd tol : ℚ) (fb : Nat) :
    ∀ (cs : List Cand) (i : Nat) (cl : Option Nat) (cd : ℚ),
      (cl = none → tol < cd) →
      (∀ j, j < cs.findIdx (moreSpecificAt L rank) →
        ¬(dAt relDist rd cs j ≤ tol ∧ dAt relDist rd cs j < cd)) →
      resolveScanGo L relDist rank rd tol fb i cs cl cd =
        (match cl with
         | some jab => jab
         | none => if cs.findIdx (moreSpecificAt L rank) < cs.length
                   then i + cs.findIdx (moreSpecificAt L rank) else fb) := by
  intro cs
  induction cs with
  | nil =>
      intro i cl cd hcl hno
      cases cl with
      | none => simp [resolveScanGo, List.findIdx]
      | some jab => simp [resolveScanGo]
  | cons c rest ih =>
      intro i cl cd hcl hno
      by_cases hms : moreSpecificAt L rank c = true
      · have hstop : (c :: rest).findIdx (moreSpecificAt L rank) = 0 := by
          rw [List.findIdx_cons, hms]
          rfl
        rw [hstop]
        cases cl with
        | none => simp [resolveScanGo, hms]
        | some jab => simp [resolveScanGo, hms]
      · have hstop : (c :: rest).findIdx (moreSpecificAt L rank)
            = rest.findIdx (moreSpecificAt L rank) + 1 := by
          rw [List.findIdx_cons]
          cases h : moreSpecificAt L rank c with
          | true => exact absurd h hms
          | false => rfl
        have hd0 : dAt relDist rd (c :: rest) 0 = |rd - relDist c.1| := rfl
        have hshift : ∀ j, dAt relDist rd (c :: rest) (j + 1) = dAt relDist rd rest j :=
          fun j => rfl
        have hstep : resolveScanGo L relDist rank rd tol fb i (c :: rest) cl cd =
            (if tol < |rd - relDist c.1|
             then resolveScanGo L relDist rank rd tol fb (i + 1) rest cl cd
             else if |rd - relDist c.1| < cd
                  then resolveScanGo L relDist rank rd tol fb (i + 1) rest (some i) (|rd - relDist c.1|)
                  else resolveScanGo L relDist rank rd tol fb (i + 1) rest cl cd) := by
          simp only [resolveScanGo, Bool.not_eq_true] at *
          rw [if_neg (by simp [hms])]
        have hno' : ∀ j, j < rest.findIdx (moreSpecificAt L rank) →
            ¬(dAt relDist rd rest j ≤ tol ∧ dAt relDist rd rest j < cd) := by
          intro j hj
          rw [← hshift j]
          exact hno (j + 1) (by omega)
        rw [hstep]
        by_cases h1 : tol < |rd - relDist c.1|
        · rw [if_pos h1, ih (i + 1) cl cd hcl hno']
          cases cl with
          | some jab => rfl
          | none =>
              rw [hstop]
              simp only [List.length_cons]
              by_cases h2 : rest.findIdx (moreSpecificAt L rank) < rest.length
              · rw [if_pos h2,
                  if_pos (show rest.findIdx (moreSpecificAt L rank) + 1 < rest.length + 1
                    by omega)]
                omega
              · rw [if_neg h2,
                  if_neg (show ¬(rest.findIdx (moreSpecificAt L rank) + 1 < rest.length + 1)
                    by omega)]
        · rw [if_neg h1]
          have hd0cd : ¬ (|rd - relDist c.1| < cd) := by
            intro hlt
            have h0stop : 0 < (c :: rest).findIdx (moreSpecificAt L rank) := by omega
            exact hno 0 h0stop ⟨by rw [hd0]; exact not_lt.mp h1, by rw [hd0]; exact hlt⟩
          rw [if_neg hd0cd, ih (i + 1) cl cd hcl hno']
          cases cl with
          | some jab => rfl
          | none =>
              rw [hstop]
              simp only [List.length_cons]
              by_cases h2 : rest.findIdx (moreSpecificAt L rank) < rest.length
              · rw [if_pos h2,
                  if_pos (show rest.findIdx (moreSpecificAt L rank) + 1 < rest.length + 1
                    by omega)]
                omega
              · rw [if_neg h2,
                  if_neg (show ¬(rest.findIdx (moreSpecificAt L rank) + 1 < rest.length + 1)
                    by omega)]

theorem scanGo_min (L : Labels) (relDist : NPath → ℚ) (rank : Nat)
    (rd tol : ℚ) (fb : Nat) :
    ∀ (cs : List Cand) (i : Nat) (cl : Option Nat) (cd : ℚ) (jm : Nat),
      jm < cs.findIdx (moreSpecificAt L rank) →
      dAt relDist rd cs jm ≤ tol →
      dAt relDist rd cs jm < cd →
      (∀ j, j < cs.findIdx (moreSpecificAt L rank) →
        dAt relDist rd cs j ≤ tol → dAt relDist rd cs j < cd →
        dAt relDist rd cs jm ≤ dAt relDist rd cs j) →
      (∀ j, j < jm → dAt relDist rd cs j ≤ tol →
        dAt relDist rd cs jm < dAt relDist rd cs j) →
      resolveScanGo L relDist rank rd tol fb i cs cl cd = i + jm := by
  intro cs
  induction cs with
  | nil =>
      intro i cl cd jm hjm
      exact absurd hjm (by simp [List.findIdx, List.findIdx.go])
  | cons c rest ih =>
      intro i cl cd jm hjm htol hcd hmin hstrict
      by_cases hms : moreSpecificAt L rank c = true
      · have hstop : (c :: rest).findIdx (moreSpecificAt L rank) = 0 := by
          rw [List.findIdx_cons, hms]
          rfl
        rw [hstop] at hjm
        omega
      · have hstop : (c :: rest).findIdx (moreSpecificAt L rank)
            = rest.findIdx (moreSpecificAt L rank) + 1 := by
          rw [List.findIdx_cons]
          cases h : moreSpecificAt L rank c with
          | true => exact absurd h hms
          | false => rfl
        have hd0 : dAt relDist rd (c :: rest) 0 = |rd - relDist c.1| := rfl
        have hshift : ∀ j, dAt relDist rd (c :: rest) (j + 1) = dAt relDist rd rest j :=
          fun j => rfl
        have hstep : resolveScanGo L relDist rank rd tol fb i (c :: rest) cl cd =
            (if tol < |rd - relDist c.1|
             then resolveScanGo L relDist rank rd tol fb (i + 1) rest cl cd
             else if |rd - relDist c.1| < cd
                  then resolveScanGo L relDist rank rd tol fb (i + 1) rest (some i) (|rd - relDist c.1|)
                  else resolveScanGo L relDist rank rd tol fb (i + 1) rest cl cd) := by
          simp only [resolveScanGo, Bool.not_eq_true] at *
          rw [if_neg (by simp [hms])]
        rw [hstep]
        cases jm with
        | zero =>
            rw [hd0] at htol hcd
            rw [if_neg (not_lt.mpr htol), if_pos hcd]
            have hside : ∀ j, j < rest.findIdx (moreSpecificAt L rank) →
                ¬(dAt relDist rd rest j ≤ tol ∧ dAt relDist rd rest j < |rd - relDist c.1|) := by
              intro j hj hcontra
              have himp1 : dAt relDist rd (c :: rest) (j + 1) ≤ tol := by
                rw [hshift j]; exact hcontra.1
              have himp2 : dAt relDist rd (c :: rest) (j + 1) < cd := by
                rw [hshift j]; exact lt_trans hcontra.2 hcd
              have hge := hmin (j + 1) (by omega) himp1 himp2
              rw [hd0, hshift j] at hge
              exact absurd hcontra.2 (not_lt.mpr hge)
            rw [scanGo_no_improve L relDist rank rd tol fb rest (i + 1) (some i)
              (|rd - relDist c.1|) (fun h => by cases h) hside]
            rfl
        | succ jm' =>
            have hjm' : jm' < rest.findIdx (moreSpecificAt L rank) := by omega
            have htol' : dAt relDist rd rest jm' ≤ tol := by rw [← hshift jm']; exact htol
            have hmin' : ∀ j, j < rest.findIdx (moreSpecificAt L rank) →
                dAt relDist rd rest j ≤ tol → dAt relDist rd rest j < cd →
                dAt relDist rd rest jm' ≤ dAt relDist rd rest j := by
              intro j hj h1 h2
              have := hmin (j + 1) (by omega) (by rw [hshift]; exact h1) (by rw [hshift]; exact h2)
              rw [hshift jm', hshift j] at this
              exact this
            have hstrict' : ∀ j, j < jm' → dAt relDist rd rest j ≤ tol →
                dAt relDist rd rest jm' < dAt relDist rd rest j := by
              intro j hj h1
              have := hstrict (j + 1) (by omega) (by rw [hshift]; exact h1)
              rw [hshift jm', hshift j] at this
              exact this
            by_cases h1 : tol < |rd - relDist c.1|
            · rw [if_pos h1]
              have := ih (i + 1) cl cd jm' hjm' htol' (by rw [← hshift jm']; exact hcd)
                hmin' hstrict'
              rw [this]
              omega
            · rw [if_neg h1]
              have hd0tol : |rd - relDist c.1| ≤ tol := not_lt.mp h1
              have hstrict0 : dAt relDist rd (c :: rest) (jm' + 1) < |rd - relDist c.1| := by
                have := hstrict 0 (by omega) (by rw [hd0]; exact hd0tol)
                rw [hd0] at this
                exact this
              by_cases h2 : |rd - relDist c.1| < cd
              · rw [if_pos h2]
                have hcd' : dAt relDist rd rest jm' < |rd - relDist c.1| := by
                  rw [← hshift jm']
                  exact hstrict0
                have hmin'' : ∀ j, j < rest.findIdx (moreSpecificAt L rank) →
                    dAt relDist rd rest j ≤ tol → dAt relDist rd rest j < |rd - relDist c.1| →
                    dAt relDist rd rest jm' ≤ dAt relDist rd rest j := by
                  intro j hj ha hb
                  exact hmin' j hj ha (lt_trans hb h2)
                have := ih (i + 1) (some i) (|rd - relDist c.1|) jm' hjm' htol' hcd'
                  hmin'' hstrict'
                rw [this]
                omega
              · rw [if_neg h2]
                have := ih (i + 1) cl cd jm' hjm' htol' (by rw [← hshift jm']; exact hcd)
                  hmin' hstrict'
                rw [this]
                omega

/-- C3: the resolver scan over an ambiguous taxon's candidates (in preorder)
stops at the first candidate whose committed label is strictly more specific
than the taxon's rank, selecting it when nothing was selected yet; otherwise
it selects, among the scanned candidates within `max_rd_diff` of the
expected relative divergence, the one with strictly smallest difference
(earliest on ties); and with no candidate in tolerance and no more-specific
stop, it falls back to the last candidate. -/
theorem c3_ambiguous_resolution_scan (L : Labels) (relDist : NPath → ℚ)
    (rank : Nat) (rd tol : ℚ) (cands : List Cand) (htol : tol < 10 ^ 9) :
    ((∀ j, j < cands.findIdx (moreSpecificAt L rank) → ¬ dAt relDist rd cands j ≤ tol) →
      cands.findIdx (moreSpecificAt L rank) < cands.length →
      resolveScan L relDist rank rd tol cands = cands.findIdx (moreSpecificAt L rank))
    ∧ ((∀ j, j < cands.findIdx (moreSpecificAt L rank) → ¬ dAt relDist rd cands j ≤ tol) →
      cands.findIdx (moreSpecificAt L rank) = cands.length →
      resolveScan L relDist rank rd tol cands = cands.length - 1)
    ∧ (∀ jm, jm < cands.findIdx (moreSpecificAt L rank) →
        dAt relDist rd cands jm ≤ tol →
        (∀ j, j < cands.findIdx (moreSpecificAt L rank) → dAt relDist rd cands j ≤ tol →
          dAt relDist rd cands jm ≤ dAt relDist rd cands j) →
        (∀ j, j < jm → dAt relDist rd cands j ≤ tol →
          dAt relDist rd cands jm < dAt relDist rd cands j) →
        resolveScan L relDist rank rd tol cands = jm) := by
  refine ⟨?_, ?_, ?_⟩
  · intro hno hlt
    unfold resolveScan
    rw [scanGo_no_improve L relDist rank rd tol (cands.length - 1) cands 0 none (10 ^ 9 : ℚ)
      (fun _ => htol) (fun j hj hc => hno j hj hc.1)]
    rw [if_pos hlt]
    exact Nat.zero_add _
  · intro hno heq
    unfold resolveScan
    rw [scanGo_no_improve L relDist rank rd tol (cands.length - 1) cands 0 none (10 ^ 9 : ℚ)
      (fun _ => htol) (fun j hj hc => hno j hj hc.1)]
    rw [if_neg (by omega)]
  · intro jm hjm htl hmin hstrict
    unfold resolveScan
    rw [scanGo_min L relDist rank rd tol (cands.length - 1) cands 0 none (10 ^ 9 : ℚ) jm
      hjm htl (lt_of_le_of_lt htl htol)
      (fun j hj h1 _ => hmin j hj h1) hstrict]
    omega

/-- Two tied candidates, used by the C3 witness. -/
def cands3 : List Cand := [([0], 4/5, 1, 1/2), ([1], 4/5, 1, 1/2)]

/-- Node relative divergences for the C3 witness: 0.25 at `[0]`, 0.40 at `[1]`. -/
def relDist3 : NPath → ℚ := fun p => if p = [0] then 1/4 else 2/5

/-- Witness for C3, the spec's concrete scenario: rank threshold 0.30 and
tolerance 0.1 pick the candidate with relative divergence 0.25. -/
theorem c3_witness : resolveScan emptyLabels relDist3 1 (3/10) (1/10) cands3 = 0 :=
  (c3_ambiguous_resolution_scan emptyLabels relDist3 1 (3/10) (1/10) cands3
      (by norm_num)).2.2 0 (by decide) (by decide)
    (by
      intro j hj _
      have hj2 : j < 2 := by
        rw [show cands3.findIdx (moreSpecificAt emptyLabels 1) = 2 by decide] at hj
        exact hj
      interval_cases j <;> decide)
    (by intro j hj; omega)

set_option maxRecDepth 100000

/-- C6 fails on the code: on `treeHV` (with the external estimator returning
relative divergence 1 for every node and rank threshold 0), the pipeline
commits class `c__u` to the tree root and then places its own parent phylum
`p__tx` at the leaf `[1, 0]`, a strict descendant of the root — a coarser
label nested below a strictly more specific committed one, in the same
parent chain (`p__tx` is the parent of `c__u` in the taxonomy).  The scan
only inspects the labels of the taxon's own candidates, so a finer label
committed above them is never seen. -/
theorem c6_hierarchy_violated :
    ("c__u" ∈ ((runPlacement treeHV taxHV emptyLabels
        (fun _ => 1) (fun _ => 0) (1 / 10)).2 []).taxa)
    ∧ ("p__tx" ∈ ((runPlacement treeHV taxHV emptyLabels
        (fun _ => 1) (fun _ => 0) (1 / 10)).2 [1, 0]).taxa)
    ∧ ([1, 0] : NPath) = [] ++ [1, 0] ∧ ([1, 0] : NPath) ≠ []
    ∧ (taxHV "L2")[1]? = some "p__tx" ∧ (taxHV "L2")[2]? = some "c__u" :=
  ⟨by decide, by decide, rfl, by decide, by decide, by decide⟩

/-- C8 fails on the code as stated for every input: `_strip_taxon_labels`
only rewrites internal nodes whose support value is truthy, so on a
support-free tree the first run's labels survive the strip and the second
run appends a duplicate token: the final label assignments differ. -/
theorem c8_counterexample :
    (runPlacement treeAB taxAB
        (stripTaxonLabels treeAB
          (runPlacement treeAB taxAB emptyLabels (fun _ => 0) (fun _ => 0) (1 / 10)).2)
        (fun _ => 0) (fun _ => 0) (1 / 10)).2 []
      ≠ (runPlacement treeAB taxAB emptyLabels (fun _ => 0) (fun _ => 0) (1 / 10)).2 [] := by
  decide

/-- C8 (amended): whenever stripping the produced labels restores the label
state the run started from — in particular when every labelled node carries
a truthy support value and no label lands on a leaf — re-running Placement
Search and Assignment/Resolution reproduces the same final label assignment:
the pipeline is a deterministic function of the tree, taxonomy, divergence
data and threshold. -/
theorem c8_rerun_reproduces (t : PTree) (τ : String → List String) (L0 : Labels)
    (relDist : NPath → ℚ) (medianRd : Nat → ℚ) (tol : ℚ)
    (h : stripTaxonLabels t (runPlacement t τ L0 relDist medianRd tol).2 = L0) :
    runPlacement t τ (stripTaxonLabels t (runPlacement t τ L0 relDist medianRd tol).2)
        relDist medianRd tol
      = runPlacement t τ L0 relDist medianRd tol := by
  rw [h]

/-- Witness for the amended C8 on a label-free run. -/
theorem c8_witness :
    runPlacement treeAB taxNone
        (stripTaxonLabels treeAB
          (runPlacement treeAB taxNone emptyLabels (fun _ => 0) (fun _ => 0) (1 / 10)).2)
        (fun _ => 0) (fun _ => 0) (1 / 10)
      = runPlacement treeAB taxNone emptyLabels (fun _ => 0) (fun _ => 0) (1 / 10) :=
  c8_rerun_reproduces treeAB taxNone emptyLabels (fun _ => 0) (fun _ => 0) (1 / 10) rfl
